import Mathlib

/-!
Verification of the expression-layout and cursor-navigation core of
`visual-python` (`src/visual/__main__.py`).

The Python core is shallowly embedded:

* strings are `List Char` (Python strings are immutable sequences of
  characters; slicing/concatenation map to `List.take`/`List.drop`/`++`),
* color tags (ANSI escape strings, used only as opaque labels) are the
  inductive `Color`; `TXT_COLOR`, `NUM_COLOR`, `OP_COLOR` map to
  `Color.txt`/`Color.num`/`Color.op`, both `FRAC_COLOR` and `PAREN_COLOR`
  are `ansi.reset` and map to `Color.reset`, and the empty-string
  "no color" tag maps to `Color.blank`,
* code that can raise (failed `assert`, `ValueError` from unpacking,
  `AttributeError` from dereferencing a `None` cursor, `IndexError`)
  returns `Option` and yields `none` on the raising paths,
* the mutable tree is the inductive `Expr`; a key-press, which in Python
  mutates nodes in place, is the function `pressKey` from the old root
  tree to the new root tree (plus the returned "accepted" flag and the
  number of diagnostic `eprint` calls made while handling the key).
-/

/-- Color tag. The Python code stores ANSI escape strings and uses them
only as opaque labels; `blank` is the empty string `""` used for
"no color", `reset` is `ansi.reset` (the value of both `FRAC_COLOR` and
`PAREN_COLOR`). -/
inductive Color where
  | txt
  | num
  | op
  | reset
  | blank
deriving DecidableEq, Repr

/-- `ScreenOffset` from the source: a row/column pair. Rows and columns
are always non-negative in the source (asserted in `cursor_string`,
and navigation never drives a column below 0). -/
structure ScreenOffset where
  row : Nat
  col : Nat
deriving DecidableEq, Repr

/-- `RenderOutput` from the source: grid rows, parallel color rows, the
baseline row index, and an optional cursor in the node's own frame. -/
structure RenderOutput where
  lines : List (List Char)
  colors : List (List Color)
  baseline : Nat
  cursor : Option ScreenOffset
deriving DecidableEq, Repr

/-- The expression tree: the four `Expression` subclasses of the source.
Only `Text` carries editable content and an optional cursor
(`Text.__init__` sets `self.cursor = None`). -/
inductive Expr where
  | text (s : List Char) (cursor : Option ScreenOffset)
  | row (items : List Expr)
  | frac (num den : Expr)
  | paren (e : Expr)
deriving Repr

/-- `FRAC_PADDING` from the source config block. -/
def FRAC_PADDING : Nat := 1

/-- Per-character classification from `Text.colorize`: letters get
`TXT_COLOR`, digits `NUM_COLOR`, the operator characters `"+-*/=|&^@"`
get `OP_COLOR`, anything else the empty "no color" tag. -/
def charColor (ch : Char) : Color :=
  if ch.isAlpha then Color.txt
  else if ch.isDigit then Color.num
  else if ch ∈ ['+', '-', '*', '/', '=', '|', '&', '^', '@'] then Color.op
  else Color.blank

/-- `Text.colorize`: one color per character. -/
def colorize (s : List Char) : List Color := s.map charColor

/-- `str_align(s, width)`, i.e. Python `f"{s:^{width}}"`: center `s` in
`width` cells; when `width ≤ len(s)` the string is returned unchanged,
otherwise the extra padding is split with the floor half on the left
(Python centering puts the odd extra cell on the right). -/
def strAlign (s : List Char) (width : Nat) : List Char :=
  if width ≤ s.length then s
  else
    List.replicate ((width - s.length) / 2) ' ' ++ s ++
      List.replicate (width - s.length - (width - s.length) / 2) ' '

/-- `list_align(ls, width)`: immediately returns `[]` for width 0;
otherwise pads with the empty color alternately on the right then the
left until the list has length `width` (so floor-half of the padding
ends up on the left, matching `str_align`), and finally asserts
`len(out) == width` — which fails (here: `none`) when the input was
already longer than `width`. -/
def listAlign (ls : List Color) (width : Nat) : Option (List Color) :=
  if width = 0 then some []
  else if width < ls.length then none
  else
    some (List.replicate ((width - ls.length) / 2) Color.blank ++ ls ++
      List.replicate (width - ls.length - (width - ls.length) / 2) Color.blank)

/-- `align_space(expr, width)` with `expr.width()` passed in as
`exprWidth`: the index at which a run of `exprWidth` characters starts
when centered in `width` (with the special case `width // 2` for an
empty run). For `exprWidth ≥ width` Python's `f"{...:^{width}}"` is the
identity and `.index` returns 0, which truncated subtraction matches. -/
def alignSpace (exprWidth width : Nat) : Nat :=
  if exprWidth = 0 then width / 2
  else (width - exprWidth) / 2

/-- `Expression.width`: `lines = self.render().lines`, assert that all
lines have one common length (failing for an empty `lines`, where the
set of lengths is empty), then return `len(lines[0])`. This is the part
after the `render()` call. -/
def outWidth (r : RenderOutput) : Option Nat :=
  match r.lines with
  | [] => none
  | l :: ls => if ls.all (fun x => x.length == l.length) then some l.length else none

/-- Widths of a list of child render results (`[x.width() for x in self.items]`;
`x.width()` re-renders `x`, and render is pure, so the already-computed
render results are reused here). -/
def outWidths : List RenderOutput → Option (List Nat)
  | [] => some []
  | r :: rs =>
    match outWidth r, outWidths rs with
    | some w, some ws => some (w :: ws)
    | _, _ => none

/-- `baseline = max(baselines)` in `Row.render` (the list is non-empty
there and baselines are non-negative, so folding `max` from 0 agrees). -/
def maxBaseline : List RenderOutput → Nat
  | [] => 0
  | r :: rs => max r.baseline (maxBaseline rs)

/-- The row count produced by `zip_longest(*xss)`: the maximum length. -/
def maxLen {α : Type} : List (List α) → Nat
  | [] => 0
  | l :: ls => max l.length (maxLen ls)

/-- Baseline top padding of one child's lines in `Row.render`:
`pad` rows of `w` spaces inserted above. -/
def padLines (ls : List (List Char)) (w pad : Nat) : List (List Char) :=
  List.replicate pad (List.replicate w ' ') ++ ls

/-- Baseline top padding of one child's color rows in `Row.render`:
`pad` rows of `list_align([""], w)`, i.e. `w` copies of the blank tag
(and `[]` when `w = 0`, which `List.replicate` also gives). -/
def padColors (cs : List (List Color)) (w pad : Nat) : List (List Color) :=
  List.replicate pad (List.replicate w Color.blank) ++ cs

/-- Pair up each child's padded lines, padded colors and width
(the per-child loop at the top of `Row.render`). -/
def padAll : List RenderOutput → List Nat → Nat →
    List (List (List Char) × List (List Color) × Nat)
  | r :: rs, w :: ws, baseline =>
    (padLines r.lines w (baseline - r.baseline),
     padColors r.colors w (baseline - r.baseline), w) :: padAll rs ws baseline
  | _, _, _ => []

/-- The cursor computation of `Row.render`: walk the children left to
right keeping the running width `wSoFar`; whenever a child's render has
a cursor, overwrite the accumulator with the translated cursor (rows
shift by that child's top padding, columns by the widths to its left). -/
def rowCursor : List RenderOutput → List Nat → Nat → Nat → Option ScreenOffset →
    Option ScreenOffset
  | r :: rs, w :: ws, baseline, wSoFar, acc =>
    rowCursor rs ws baseline (wSoFar + w)
      (match r.cursor with
       | some cur => some ⟨cur.row + (baseline - r.baseline), cur.col + wSoFar⟩
       | none => acc)
  | _, _, _, _, acc => acc

/-- Output row `i` of `Row.render`: for each child take its padded row
`i` (the `zip_longest` fill value `""` past the end), center it in the
child's width, and concatenate. -/
def rowLine : List (List (List Char) × List (List Color) × Nat) → Nat → List Char
  | [], _ => []
  | (ls, _, w) :: rest, i => strAlign ((ls[i]?).getD []) w ++ rowLine rest i

/-- Output color row `i` of `Row.render` (fill value `[]` past the end,
`list_align` into the child's width, concatenate). -/
def rowColor : List (List (List Char) × List (List Color) × Nat) → Nat →
    Option (List Color)
  | [], _ => some []
  | (_, cs, w) :: rest, i =>
    match listAlign ((cs[i]?).getD []) w, rowColor rest i with
    | some a, some b => some (a ++ b)
    | _, _ => none

/-- All output color rows of `Row.render` for the row indices `is`. -/
def colorRows (ps : List (List (List Char) × List (List Color) × Nat)) :
    List Nat → Option (List (List Color))
  | [] => some []
  | i :: is =>
    match rowColor ps i, colorRows ps is with
    | some c, some cs => some (c :: cs)
    | _, _ => none

/-- The body of `Row.render` after the children have been rendered and
measured. The number of output rows is the length of
`zip(zip_longest(*lines), zip_longest(*colors))`, i.e. the minimum of
the two maxima. -/
def rowAssemble (rs : List RenderOutput) (widths : List Nat) : Option RenderOutput :=
  let baseline := maxBaseline rs
  let ps := padAll rs widths baseline
  let cursor := rowCursor rs widths baseline 0 none
  let n := min (maxLen (ps.map (fun p => p.1))) (maxLen (ps.map (fun p => p.2.1)))
  match colorRows ps (List.range n) with
  | none => none
  | some cs => some ⟨(List.range n).map (rowLine ps), cs, baseline, cursor⟩

/-- `[list_align(c, w) for c in colors]` in `Fraction.render`. -/
def alignColorRows : List (List Color) → Nat → Option (List (List Color))
  | [], _ => some []
  | c :: cs, w =>
    match listAlign c w, alignColorRows cs w with
    | some a, some rest => some (a :: rest)
    | _, _ => none

/-- The body of `Fraction.render` after numerator and denominator have
been rendered (`rn`, `rd`) and measured (`nw`, `dw`):
`w = 2*FRAC_PADDING + max(nw, dw)`, `baseline = len(rn.lines)`, the
equal-line-length asserts are witnessed by `nw`/`dw`, the
`n.cursor is None or d.cursor is None` assert yields `none` when both
cursors are present, the denominator cursor (assigned second in the
source) takes precedence, and lines/colors are numerator rows centered
to `w`, one divider row, then denominator rows centered to `w`. -/
def fracAssemble (rn rd : RenderOutput) (nw dw : Nat) : Option RenderOutput :=
  let w := 2 * FRAC_PADDING + max nw dw
  let baseline := rn.lines.length
  if rn.cursor.isSome && rd.cursor.isSome then none
  else
    let cursor : Option ScreenOffset :=
      match rd.cursor with
      | some dc => some ⟨dc.row + baseline + 1, dc.col + alignSpace dw w⟩
      | none =>
        match rn.cursor with
        | some nc => some ⟨nc.row, nc.col + alignSpace nw w⟩
        | none => none
    match alignColorRows rn.colors w, alignColorRows rd.colors w with
    | some ncs, some dcs =>
      some ⟨rn.lines.map (fun l => strAlign l w) ++
              List.replicate w '─' :: rd.lines.map (fun l => strAlign l w),
            ncs ++ List.replicate w Color.reset :: dcs,
            baseline, cursor⟩
    | _, _ => none

/-- The per-row loop of the multi-row branch of `Parenthesis.render`:
row 0 gets the top glyph pair, the last row (index `total - 1`, with
`total = len(expr_lines)`) the bottom pair, interior rows the middle
pair; each content row is centered to the child's width between the
glyphs and its color row is `list_align`ed with a paren tag added on
each side. -/
def parenRows (pairs : List (List Char × List Color)) (idx total w : Nat) :
    Option (List (List Char) × List (List Color)) :=
  match pairs with
  | [] => some ([], [])
  | (l, c) :: rest =>
    let lp : Char := if idx = 0 then '⎛' else if idx < total - 1 then '⎜' else '⎝'
    let rp : Char := if idx = 0 then '⎞' else if idx < total - 1 then '⎟' else '⎠'
    match listAlign c w, parenRows rest (idx + 1) total w with
    | some ac, some (restL, restC) =>
      some ((lp :: strAlign l w ++ [rp]) :: restL,
            (Color.reset :: ac ++ [Color.reset]) :: restC)
    | _, _ => none

/-- The body of `Parenthesis.render` after the child has been rendered
(`r`) and measured (`w`). The source builds
`ScreenOffset(cursor.row, cursor.col + 1)` from the child's cursor in
every branch, so a child render without a cursor raises
(`AttributeError` on `None`): `none` here. The single-row branch reads
`expr_colors[0]` (an `IndexError`, hence `none`, if the child's colors
are empty) and puts `PAREN_COLOR` around it; the multi-row branch keeps
the child's baseline. -/
def parenAssemble (r : RenderOutput) (w : Nat) : Option RenderOutput :=
  match r.cursor with
  | none => none
  | some cur =>
    match r.lines, r.colors with
    | [l], c0 :: _ =>
      some ⟨[('(' :: l) ++ [')']],
            [(Color.reset :: c0) ++ [Color.reset]],
            0, some ⟨cur.row, cur.col + 1⟩⟩
    | [_], [] => none
    | ls, cs =>
      match parenRows (ls.zip cs) 0 ls.length w with
      | none => none
      | some (outL, outC) => some ⟨outL, outC, r.baseline, some ⟨cur.row, cur.col + 1⟩⟩

mutual

/-- `Expression.render` by variant. `Text.render` is one row with the
node's own cursor. `Row.render` with no children raises (unpacking
`zip(*[])` into four variables is a `ValueError`), otherwise the
children are measured and rendered and composed by `rowAssemble`
(in the source the `x.width()` calls come first and re-render each
child; render is pure, so measuring the rendered results is the same).
`Fraction.render` and `Parenthesis.render` delegate to their assemble
helpers the same way. -/
def render : Expr → Option RenderOutput
  | .text s c => some ⟨[s], [colorize s], 0, c⟩
  | .row [] => none
  | .row (x :: xs) =>
    match renderList (x :: xs) with
    | none => none
    | some rs =>
      match outWidths rs with
      | none => none
      | some widths => rowAssemble rs widths
  | .frac num den =>
    match render num, render den with
    | some rn, some rd =>
      match outWidth rn, outWidth rd with
      | some nw, some dw => fracAssemble rn rd nw dw
      | _, _ => none
    | _, _ => none
  | .paren x =>
    match render x with
    | none => none
    | some r =>
      match outWidth r with
      | none => none
      | some w => parenAssemble r w

/-- `[x.render() for x in self.items]`. -/
def renderList : List Expr → Option (List RenderOutput)
  | [] => some []
  | x :: xs =>
    match render x, renderList xs with
    | some r, some rs => some (r :: rs)
    | _, _ => none

end

/-- `Expression.width`: render, then assert all lines share one length
and return it. -/
def widthE (e : Expr) : Option Nat :=
  match render e with
  | none => none
  | some r => outWidth r

/-- The key taxonomy consumed from `readchar`. `printable c` stands for
a key string for which `key.isprintable()` holds (a single printable
character); `backspace`, `left`, `right`, `up`, `down` are the
`readchar.key` escape sequences tested by `Text.press_key` (none of
which is printable); `other` is any other, non-printable, key. -/
inductive Key where
  | printable (c : Char)
  | backspace
  | left
  | right
  | up
  | down
  | other
deriving DecidableEq, Repr

/-- The outcome of delivering one key to the root: the tree after the
call (Python mutates in place), the boolean the call returns, and the
number of diagnostic `eprint` calls made while handling the key. -/
structure KeyResult where
  tree : Expr
  accepted : Bool
  diags : Nat

mutual

/-- `Expression._bfs_children`: yield the node itself, then each child's
flattening in child order (a pre-order traversal, despite the name). -/
def preorder : Expr → List Expr
  | .text s c => [.text s c]
  | .row items => .row items :: preorderList items
  | .frac num den => .frac num den :: (preorder num ++ preorder den)
  | .paren x => .paren x :: preorder x

/-- Concatenated pre-order flattenings of a list of children. -/
def preorderList : List Expr → List Expr
  | [] => []
  | x :: xs => preorder x ++ preorderList xs

end

mutual

/-- Number of nodes of a tree (the length of its pre-order flattening). -/
def nodeCount : Expr → Nat
  | .text _ _ => 1
  | .row items => 1 + nodeCountList items
  | .frac num den => 1 + (nodeCount num + nodeCount den)
  | .paren x => 1 + nodeCount x

/-- Total node count of a list of trees. -/
def nodeCountList : List Expr → Nat
  | [] => 0
  | x :: xs => nodeCount x + nodeCountList xs

end

mutual

/-- Number of `Text` nodes currently owning a cursor. -/
def cursorCount : Expr → Nat
  | .text _ (some _) => 1
  | .text _ none => 0
  | .row items => cursorCountList items
  | .frac num den => cursorCount num + cursorCount den
  | .paren x => cursorCount x

/-- Total cursor count of a list of trees. -/
def cursorCountList : List Expr → Nat
  | [] => 0
  | x :: xs => cursorCount x + cursorCountList xs

end

mutual

/-- Replace the `Text` node at pre-order index `i` (0 is the root) by
applying `f` to its string and cursor; any other index, and any index
that lands on a non-`Text` node, leaves the tree unchanged. This is the
shallow counterpart of Python's in-place mutation of one `Text` object
found in the `bfs_children()` flattening (object identity becomes the
pre-order position; the source tree is built without aliasing). -/
def applyAt (e : Expr) (i : Nat)
    (f : List Char → Option ScreenOffset → List Char × Option ScreenOffset) : Expr :=
  match e with
  | .text s c => if i = 0 then .text (f s c).1 (f s c).2 else .text s c
  | .row items => if i = 0 then .row items else .row (applyAtList items (i - 1) f)
  | .frac num den =>
    if i = 0 then .frac num den
    else if i - 1 < nodeCount num then .frac (applyAt num (i - 1) f) den
    else .frac num (applyAt den (i - 1 - nodeCount num) f)
  | .paren x => if i = 0 then .paren x else .paren (applyAt x (i - 1) f)

/-- `applyAt` routed into a list of children, `i` counting the nodes of
the children's flattenings. -/
def applyAtList (es : List Expr) (i : Nat)
    (f : List Char → Option ScreenOffset → List Char × Option ScreenOffset) : List Expr :=
  match es with
  | [] => []
  | x :: xs =>
    if i < nodeCount x then applyAt x i f :: xs
    else x :: applyAtList xs (i - nodeCount x) f

end

/-- Whether a node is a `Text` leaf (`isinstance(expr, Text)`). -/
def isTextNode : Expr → Bool
  | .text _ _ => true
  | _ => false

/-- Whether a node is a `Text` leaf owning a cursor. -/
def isFocusedNode : Expr → Bool
  | .text _ (some _) => true
  | _ => false

/-- The string and cursor of the node at index `k` of a flattening, when
that node is a `Text` leaf. -/
def textAt (pre : List Expr) (k : Nat) : Option (List Char × Option ScreenOffset) :=
  match pre[k]? with
  | some (.text s c) => some (s, c)
  | _ => none

/-- Whether index `k` of a flattening holds a `Text` leaf. -/
def isTextIdx (pre : List Expr) (k : Nat) : Bool :=
  match pre[k]? with
  | some (.text _ _) => true
  | _ => false

/-- Whether index `k` of a flattening holds a cursor-owning `Text`. -/
def isFocusedIdx (pre : List Expr) (k : Nat) : Bool :=
  match pre[k]? with
  | some (.text _ (some _)) => true
  | _ => false

/-- Scan a flattening from absolute index `b` onward for the first
cursor-owning `Text` leaf. This is the key-dispatch recursion of
`Expression.press_key`/`Text.press_key`: every `Text` without a cursor
returns `False` and the walk continues in pre-order; the first `Text`
with a cursor handles the key. -/
def findFocusAux : List Expr → Nat → Option (Nat × List Char × ScreenOffset)
  | [], _ => none
  | .text s (some off) :: _, b => some (b, s, off)
  | _ :: rest, b => findFocusAux rest (b + 1)

/-- The pre-order index, string and cursor of the `Text` leaf that will
handle a key delivered to `root`, if any. -/
def focused (root : Expr) : Option (Nat × List Char × ScreenOffset) :=
  findFocusAux (preorder root) 0

/-- `for expr in reversed(bfs_line[:i])`: the largest index `j < i`
holding a `Text` leaf, scanning downward. -/
def scanBack (pre : List Expr) : Nat → Option Nat
  | 0 => none
  | j + 1 => if isTextIdx pre j then some j else scanBack pre j

/-- Forward scan from absolute index `b`: first `Text` leaf. -/
def scanFwdAux : List Expr → Nat → Option Nat
  | [], _ => none
  | .text _ _ :: _, b => some b
  | _ :: rest, b => scanFwdAux rest (b + 1)

/-- `for expr in bfs_line[i + 1:]`: the smallest index `j > i` holding a
`Text` leaf. -/
def scanFwd (pre : List Expr) (i : Nat) : Option Nat :=
  scanFwdAux (pre.drop (i + 1)) (i + 1)

/-- The `readchar.key.UP` branch of `Text.press_key`: scan the
flattening backward from just before the focused leaf (index `i`); on
the first `Text` found, clear the focused leaf's cursor and give that
`Text` a cursor at `ScreenOffset(0, expr.width())`, i.e. row 0, column
its text length (a `Text`'s width is its string length); if none is
found, only a warning is printed and nothing changes. -/
def moveUp (root : Expr) (i : Nat) : Expr :=
  match scanBack (preorder root) i with
  | some j =>
    applyAt (applyAt root i (fun s _ => (s, none))) j
      (fun s _ => (s, some ⟨0, s.length⟩))
  | none => root

/-- The `readchar.key.DOWN` branch of `Text.press_key`: scan forward
from just after the focused leaf; the first `Text` found gets a cursor
at `ScreenOffset(0, 0)` and the focused leaf loses its cursor. -/
def moveDown (root : Expr) (i : Nat) : Expr :=
  match scanFwd (preorder root) i with
  | some j =>
    applyAt (applyAt root i (fun s _ => (s, none))) j
      (fun s _ => (s, some ⟨0, 0⟩))
  | none => root

/-- The body of `Text.press_key` once the focused leaf (pre-order index
`i`, string `s`, cursor `off`) has been reached, returning the new tree
and the number of `eprint` calls. `isRoot` (Python: the `root` parameter
is `None`, which happens exactly when the tree root is the `Text`
itself) cancels vertical movement with one diagnostic. A printable key
inserts at the cursor column; backspace at column 0 is a diagnosed
no-op, otherwise it deletes the character left of the cursor; move-left
at column 0 and move-right at the end of the text re-dispatch as
move-up/move-down. The move-up branch prints a header, one line per
scanned node (`i` of them), and one selected/warning line: `i + 2`
diagnostics; move-down symmetrically prints `len - i + 1`.
Caveat: in the source, the delete branch's diagnostic indexes
`self.text[self.cursor.col - 1]` before mutating and raises
`IndexError` when the cursor column exceeds the text length, so this
function is the completed-call semantics, meaningful for that branch
only when `off.col ≤ s.length`; `pressKeyRaises` captures the raising
condition. -/
def handleKey (root : Expr) (i : Nat) (s : List Char) (off : ScreenOffset)
    (key : Key) : Expr × Nat :=
  let isRoot := isTextNode root
  match key with
  | .printable ch =>
    (applyAt root i
      (fun s0 _ => (s0.take off.col ++ ch :: s0.drop off.col,
                    some ⟨off.row, off.col + 1⟩)), 1)
  | .backspace =>
    if off.col = 0 then (root, 1)
    else
      (applyAt root i
        (fun s0 _ => (s0.take (off.col - 1) ++ s0.drop off.col,
                      some ⟨off.row, off.col - 1⟩)), 1)
  | .left =>
    if 0 < off.col then
      (applyAt root i (fun s0 _ => (s0, some ⟨off.row, off.col - 1⟩)), 0)
    else if isRoot then (root, 1)
    else (moveUp root i, i + 2)
  | .right =>
    if off.col < s.length then
      (applyAt root i (fun s0 _ => (s0, some ⟨off.row, off.col + 1⟩)), 0)
    else if isRoot then (root, 1)
    else (moveDown root i, (preorder root).length - i + 1)
  | .up => if isRoot then (root, 1) else (moveUp root i, i + 2)
  | .down => if isRoot then (root, 1) else (moveDown root i, (preorder root).length - i + 1)
  | .other => (root, 0)

/-- `expression.press_key(key)` at the root: the pre-order dispatch
finds the first cursor-owning `Text` leaf; if none exists every node
returns `False` and nothing changes; otherwise that leaf handles the
key and the call returns `True` (`Text.press_key` ends in
`return True` for every key, recognized or not). -/
def pressKey (root : Expr) (key : Key) : KeyResult :=
  match focused root with
  | none => ⟨root, false, 0⟩
  | some (i, s, off) =>
    let h := handleKey root i s off key
    ⟨h.1, true, h.2⟩

/-- Whether delivering `key` makes the handling `Text.press_key` raise
instead of returning. The one raising path in `Text.press_key` is the
erase-backward delete branch: its diagnostic
`eprint(f"REMOVE: '{self.text[self.cursor.col - 1]}'")` indexes the
text at `col - 1` before any mutation and raises `IndexError` exactly
when the cursor column exceeds the text length (for `col ≤ len` every
other step of every branch is slicing or list building, which never
raises). The crash happens before the text or cursor is touched, so the
tree state at the crash is the input tree. -/
def pressKeyRaises (root : Expr) (key : Key) : Bool :=
  match focused root with
  | none => false
  | some (_, s, off) =>
    match key with
    | .backspace => if off.col = 0 then false else decide (s.length < off.col)
    | _ => false

/-- 1 for a present cursor, 0 for an absent one. -/
def cBit : Option ScreenOffset → Nat
  | some _ => 1
  | none => 0

/-- A well-formed render result: non-empty line grid, one color row per
line row, a common width shared by every line and color row, and a
successful width measurement. -/
def goodOut (r : RenderOutput) : Prop :=
  ∃ w, r.lines ≠ [] ∧ r.colors.length = r.lines.length ∧
    (∀ l ∈ r.lines, l.length = w) ∧ (∀ c ∈ r.colors, c.length = w) ∧
    outWidth r = some w

mutual

/-- State-passing form of `render`: alongside the Render Result, return
the expression tree as it stands after the call. Each Python render
method only reads tree state (it builds fresh lists and fresh
`ScreenOffset`s, and contains no assignment to any node), so every
variant returns its node rebuilt from the children's post-call states
with its own fields unchanged. -/
def renderSt : Expr → Option (RenderOutput × Expr)
  | .text s c => some (⟨[s], [colorize s], 0, c⟩, .text s c)
  | .row [] => none
  | .row (x :: xs) =>
    match renderStList (x :: xs) with
    | none => none
    | some (rs, items2) =>
      match outWidths rs with
      | none => none
      | some widths =>
        match rowAssemble rs widths with
        | none => none
        | some out => some (out, .row items2)
  | .frac num den =>
    match renderSt num with
    | none => none
    | some (rn, num2) =>
      match renderSt den with
      | none => none
      | some (rd, den2) =>
        match outWidth rn, outWidth rd with
        | some nw, some dw =>
          match fracAssemble rn rd nw dw with
          | none => none
          | some out => some (out, .frac num2 den2)
        | _, _ => none
  | .paren x =>
    match renderSt x with
    | none => none
    | some (r, x2) =>
      match outWidth r with
      | none => none
      | some w =>
        match parenAssemble r w with
        | none => none
        | some out => some (out, .paren x2)

/-- State-passing render of a list of children. -/
def renderStList : List Expr → Option (List RenderOutput × List Expr)
  | [] => some ([], [])
  | x :: xs =>
    match renderSt x with
    | none => none
    | some (r, x2) =>
      match renderStList xs with
      | none => none
      | some (rs, xs2) => some (r :: rs, x2 :: xs2)

end

/-! ### Basic facts about the flattening -/

mutual

theorem nodeCount_eq_length : ∀ e : Expr, nodeCount e = (preorder e).length
  | .text s c => by simp [nodeCount, preorder]
  | .row items => by
    simp [nodeCount, preorder, nodeCountList_eq_length items, Nat.add_comm]
  | .frac num den => by
    simp [nodeCount, preorder, nodeCount_eq_length num, nodeCount_eq_length den,
      Nat.add_comm]
  | .paren x => by simp [nodeCount, preorder, nodeCount_eq_length x, Nat.add_comm]

theorem nodeCountList_eq_length : ∀ es : List Expr,
    nodeCountList es = (preorderList es).length
  | [] => by simp [nodeCountList, preorderList]
  | x :: xs => by
    simp [nodeCountList, preorderList, nodeCount_eq_length x,
      nodeCountList_eq_length xs]

end

theorem nodeCount_pos (e : Expr) : 0 < nodeCount e := by
  cases e <;> simp [nodeCount]

theorem preorder_length_pos (e : Expr) : 0 < (preorder e).length := by
  rw [← nodeCount_eq_length]; exact nodeCount_pos e

theorem preorder_text (s : List Char) (c : Option ScreenOffset) :
    preorder (.text s c) = [.text s c] := rfl

theorem isTextIdx_eq_isSome (pre : List Expr) (k : Nat) :
    isTextIdx pre k = (textAt pre k).isSome := by
  unfold isTextIdx textAt
  match h : pre[k]? with
  | none => simp
  | some (.text s c) => simp
  | some (.row items) => simp
  | some (.frac n d) => simp
  | some (.paren x) => simp

theorem preorder_row (items : List Expr) :
    preorder (.row items) = .row items :: preorderList items := by
  simp [preorder]

theorem preorder_frac (num den : Expr) :
    preorder (.frac num den) = .frac num den :: (preorder num ++ preorder den) := by
  simp [preorder]

theorem preorder_paren (x : Expr) :
    preorder (.paren x) = .paren x :: preorder x := by
  simp [preorder]

theorem preorderList_cons (x : Expr) (xs : List Expr) :
    preorderList (x :: xs) = preorder x ++ preorderList xs := by
  simp [preorderList]

theorem textAt_cons_succ (a : Expr) (l : List Expr) (k : Nat) :
    textAt (a :: l) (k + 1) = textAt l k := by
  simp [textAt]

theorem textAt_append_left {l₁ l₂ : List Expr} {k : Nat} (h : k < l₁.length) :
    textAt (l₁ ++ l₂) k = textAt l₁ k := by
  unfold textAt
  rw [List.getElem?_append, if_pos h]

theorem textAt_append_right {l₁ l₂ : List Expr} {k : Nat} (h : l₁.length ≤ k) :
    textAt (l₁ ++ l₂) k = textAt l₂ (k - l₁.length) := by
  unfold textAt
  rw [List.getElem?_append, if_neg (by omega)]

mutual

/-- Replacing the `Text` node at pre-order index `i` changes the
flattening exactly at the text indices: index `i` now holds `f s c`,
every other index reads the same text data as before, the cursor count
changes by the difference of the old and new cursor bits, and the
flattening's length is unchanged. -/
theorem applyAt_spec : ∀ (e : Expr) (i : Nat)
    (f : List Char → Option ScreenOffset → List Char × Option ScreenOffset)
    (s : List Char) (c : Option ScreenOffset),
    textAt (preorder e) i = some (s, c) →
    textAt (preorder (applyAt e i f)) i = some (f s c) ∧
    (∀ k, k ≠ i → textAt (preorder (applyAt e i f)) k = textAt (preorder e) k) ∧
    cursorCount (applyAt e i f) + cBit c = cursorCount e + cBit (f s c).2 ∧
    (preorder (applyAt e i f)).length = (preorder e).length
  | .text s0 c0, i, f, s, c => by
    intro h
    cases i with
    | zero =>
      simp [textAt, preorder] at h
      obtain ⟨hs, hc⟩ := h
      subst hs; subst hc
      refine ⟨?_, ?_, ?_, ?_⟩
      · simp [applyAt, preorder, textAt]
      · intro k hk
        cases k with
        | zero => exact absurd rfl hk
        | succ k => simp [applyAt, preorder, textAt]
      · cases h2 : (f s0 c0).2 <;> cases c0 <;>
          simp [applyAt, cursorCount, cBit, h2]
      · simp [applyAt, preorder]
    | succ j => simp [textAt, preorder] at h
  | .row items, i, f, s, c => by
    intro h
    cases i with
    | zero => simp [textAt, preorder] at h
    | succ j =>
      rw [preorder_row, textAt_cons_succ] at h
      obtain ⟨h1, h2, h3, h4⟩ := applyAtList_spec items j f s c h
      have happ : applyAt (.row items) (j + 1) f = .row (applyAtList items j f) := by
        simp [applyAt]
      refine ⟨?_, ?_, ?_, ?_⟩
      · rw [happ, preorder_row, textAt_cons_succ]; exact h1
      · intro k hk
        cases k with
        | zero => rw [happ, preorder_row, preorder_row]; simp [textAt]
        | succ k =>
          rw [happ, preorder_row, preorder_row, textAt_cons_succ, textAt_cons_succ]
          exact h2 k (by omega)
      · rw [happ]; simp only [cursorCount]; omega
      · rw [happ, preorder_row, preorder_row]; simp [h4]
  | .frac num den, i, f, s, c => by
    intro h
    cases i with
    | zero => simp [textAt, preorder] at h
    | succ j =>
      rw [preorder_frac, textAt_cons_succ] at h
      by_cases hj : j < (preorder num).length
      · rw [textAt_append_left hj] at h
        obtain ⟨h1, h2, h3, h4⟩ := applyAt_spec num j f s c h
        have happ : applyAt (.frac num den) (j + 1) f
            = .frac (applyAt num j f) den := by
          have hnc : j < nodeCount num := by rw [nodeCount_eq_length]; exact hj
          simp [applyAt, hnc]
        refine ⟨?_, ?_, ?_, ?_⟩
        · rw [happ, preorder_frac, textAt_cons_succ,
            textAt_append_left (by rw [h4]; exact hj)]
          exact h1
        · intro k hk
          cases k with
          | zero => rw [happ, preorder_frac, preorder_frac]; simp [textAt]
          | succ k =>
            rw [happ, preorder_frac, preorder_frac, textAt_cons_succ, textAt_cons_succ]
            by_cases hk2 : k < (preorder num).length
            · rw [textAt_append_left (by rw [h4]; exact hk2), textAt_append_left hk2]
              exact h2 k (by omega)
            · rw [textAt_append_right (by rw [h4]; omega), h4,
                textAt_append_right (by omega)]
        · rw [happ]; simp only [cursorCount]; omega
        · rw [happ, preorder_frac, preorder_frac]; simp [h4]
      · push_neg at hj
        rw [textAt_append_right hj] at h
        obtain ⟨h1, h2, h3, h4⟩ := applyAt_spec den (j - (preorder num).length) f s c h
        have happ : applyAt (.frac num den) (j + 1) f
            = .frac num (applyAt den (j - (preorder num).length) f) := by
          have hnc : ¬ j < (preorder num).length := by omega
          simp [applyAt, nodeCount_eq_length, hnc]
        refine ⟨?_, ?_, ?_, ?_⟩
        · rw [happ, preorder_frac, textAt_cons_succ, textAt_append_right hj]
          exact h1
        · intro k hk
          cases k with
          | zero => rw [happ, preorder_frac, preorder_frac]; simp [textAt]
          | succ k =>
            rw [happ, preorder_frac, preorder_frac, textAt_cons_succ, textAt_cons_succ]
            by_cases hk2 : k < (preorder num).length
            · rw [textAt_append_left hk2, textAt_append_left hk2]
            · push_neg at hk2
              rw [textAt_append_right hk2, textAt_append_right hk2]
              exact h2 _ (by omega)
        · rw [happ]; simp only [cursorCount]; omega
        · rw [happ, preorder_frac, preorder_frac]; simp [h4]
  | .paren x, i, f, s, c => by
    intro h
    cases i with
    | zero => simp [textAt, preorder] at h
    | succ j =>
      rw [preorder_paren, textAt_cons_succ] at h
      obtain ⟨h1, h2, h3, h4⟩ := applyAt_spec x j f s c h
      have happ : applyAt (.paren x) (j + 1) f = .paren (applyAt x j f) := by
        simp [applyAt]
      refine ⟨?_, ?_, ?_, ?_⟩
      · rw [happ, preorder_paren, textAt_cons_succ]; exact h1
      · intro k hk
        cases k with
        | zero => rw [happ, preorder_paren, preorder_paren]; simp [textAt]
        | succ k =>
          rw [happ, preorder_paren, preorder_paren, textAt_cons_succ, textAt_cons_succ]
          exact h2 k (by omega)
      · rw [happ]; simp only [cursorCount]; omega
      · rw [happ, preorder_paren, preorder_paren]; simp [h4]

theorem applyAtList_spec : ∀ (es : List Expr) (i : Nat)
    (f : List Char → Option ScreenOffset → List Char × Option ScreenOffset)
    (s : List Char) (c : Option ScreenOffset),
    textAt (preorderList es) i = some (s, c) →
    textAt (preorderList (applyAtList es i f)) i = some (f s c) ∧
    (∀ k, k ≠ i →
      textAt (preorderList (applyAtList es i f)) k = textAt (preorderList es) k) ∧
    cursorCountList (applyAtList es i f) + cBit c
      = cursorCountList es + cBit (f s c).2 ∧
    (preorderList (applyAtList es i f)).length = (preorderList es).length
  | [], i, f, s, c => by
    intro h
    simp [preorderList, textAt] at h
  | x :: xs, i, f, s, c => by
    intro h
    rw [preorderList_cons] at h
    by_cases hi : i < (preorder x).length
    · rw [textAt_append_left hi] at h
      obtain ⟨h1, h2, h3, h4⟩ := applyAt_spec x i f s c h
      have happ : applyAtList (x :: xs) i f = applyAt x i f :: xs := by
        have hnc : i < nodeCount x := by rw [nodeCount_eq_length]; exact hi
        simp [applyAtList, hnc]
      refine ⟨?_, ?_, ?_, ?_⟩
      · rw [happ, preorderList_cons, textAt_append_left (by rw [h4]; exact hi)]
        exact h1
      · intro k hk
        rw [happ, preorderList_cons, preorderList_cons]
        by_cases hk2 : k < (preorder x).length
        · rw [textAt_append_left (by rw [h4]; exact hk2), textAt_append_left hk2]
          exact h2 k hk
        · rw [textAt_append_right (by rw [h4]; omega), h4,
            textAt_append_right (by omega)]
      · rw [happ]; simp only [cursorCountList]; omega
      · rw [happ, preorderList_cons, preorderList_cons]; simp [h4]
    · push_neg at hi
      rw [textAt_append_right hi] at h
      obtain ⟨h1, h2, h3, h4⟩ := applyAtList_spec xs (i - (preorder x).length) f s c h
      have happ : applyAtList (x :: xs) i f
          = x :: applyAtList xs (i - (preorder x).length) f := by
        have hnc : ¬ i < (preorder x).length := by omega
        simp [applyAtList, nodeCount_eq_length, hnc]
      refine ⟨?_, ?_, ?_, ?_⟩
      · rw [happ, preorderList_cons, textAt_append_right hi]; exact h1
      · intro k hk
        rw [happ, preorderList_cons, preorderList_cons]
        by_cases hk2 : k < (preorder x).length
        · rw [textAt_append_left hk2, textAt_append_left hk2]
        · push_neg at hk2
          rw [textAt_append_right hk2, textAt_append_right hk2]
          exact h2 _ (by omega)
      · rw [happ]; simp only [cursorCountList]; omega
      · rw [happ, preorderList_cons, preorderList_cons]; simp [h4]

end

/-! ### Characterizing the dispatch and the vertical scans -/

theorem textAt_eq_some_iff {pre : List Expr} {k : Nat} {s : List Char}
    {c : Option ScreenOffset} :
    textAt pre k = some (s, c) ↔ pre[k]? = some (.text s c) := by
  unfold textAt
  match h : pre[k]? with
  | none => simp
  | some (.text s0 c0) => simp [Expr.text.injEq]
  | some (.row items) => simp
  | some (.frac n d) => simp
  | some (.paren x) => simp

theorem isFocusedIdx_cons_zero (a : Expr) (l : List Expr) :
    isFocusedIdx (a :: l) 0 = isFocusedNode a := by
  cases a with
  | text s c => cases c <;> simp [isFocusedIdx, isFocusedNode]
  | row items => simp [isFocusedIdx, isFocusedNode]
  | frac n d => simp [isFocusedIdx, isFocusedNode]
  | paren x => simp [isFocusedIdx, isFocusedNode]

theorem isFocusedIdx_cons_succ (a : Expr) (l : List Expr) (k : Nat) :
    isFocusedIdx (a :: l) (k + 1) = isFocusedIdx l k := by
  simp [isFocusedIdx]

theorem isTextIdx_cons_zero (a : Expr) (l : List Expr) :
    isTextIdx (a :: l) 0 = isTextNode a := by
  cases a with
  | text s c => simp [isTextIdx, isTextNode]
  | row items => simp [isTextIdx, isTextNode]
  | frac n d => simp [isTextIdx, isTextNode]
  | paren x => simp [isTextIdx, isTextNode]

theorem isTextIdx_cons_succ (a : Expr) (l : List Expr) (k : Nat) :
    isTextIdx (a :: l) (k + 1) = isTextIdx l k := by
  simp [isTextIdx]

theorem findFocusAux_cons_not_focused {a : Expr} (h : isFocusedNode a = false)
    (rest : List Expr) (b : Nat) :
    findFocusAux (a :: rest) b = findFocusAux rest (b + 1) := by
  cases a with
  | text s c =>
    cases c with
    | none => simp [findFocusAux]
    | some off => simp [isFocusedNode] at h
  | row items => simp [findFocusAux]
  | frac n d => simp [findFocusAux]
  | paren x => simp [findFocusAux]

theorem findFocusAux_spec : ∀ (l : List Expr) (b i : Nat) (s : List Char)
    (off : ScreenOffset), findFocusAux l b = some (i, s, off) →
    b ≤ i ∧ textAt l (i - b) = some (s, some off) ∧
    ∀ m, m < i - b → isFocusedIdx l m = false := by
  intro l
  induction l with
  | nil => intro b i s off h; simp [findFocusAux] at h
  | cons a rest ih =>
    intro b i s off h
    by_cases ha : isFocusedNode a = true
    · cases a with
      | text s0 c0 =>
        cases c0 with
        | some off0 =>
          simp only [findFocusAux, Option.some.injEq, Prod.mk.injEq] at h
          obtain ⟨hb, hs, hoff⟩ := h
          subst hb; subst hs; subst hoff
          refine ⟨Nat.le_refl _, ?_, ?_⟩
          · simp [textAt]
          · intro m hm; omega
        | none => simp [isFocusedNode] at ha
      | row items => simp [isFocusedNode] at ha
      | frac n d => simp [isFocusedNode] at ha
      | paren x => simp [isFocusedNode] at ha
    · rw [Bool.not_eq_true] at ha
      rw [findFocusAux_cons_not_focused ha] at h
      obtain ⟨h1, h2, h3⟩ := ih (b + 1) i s off h
      refine ⟨by omega, ?_, ?_⟩
      · have hd : i - b = (i - (b + 1)) + 1 := by omega
        rw [hd, textAt_cons_succ]; exact h2
      · intro m hm
        cases m with
        | zero => rw [isFocusedIdx_cons_zero]; exact ha
        | succ m => rw [isFocusedIdx_cons_succ]; exact h3 m (by omega)

theorem findFocusAux_complete : ∀ (l : List Expr) (b i : Nat) (s : List Char)
    (off : ScreenOffset), textAt l i = some (s, some off) →
    (∀ m, m < i → isFocusedIdx l m = false) →
    findFocusAux l b = some (b + i, s, off) := by
  intro l
  induction l with
  | nil => intro b i s off h _; simp [textAt] at h
  | cons a rest ih =>
    intro b i s off h hmin
    cases i with
    | zero =>
      have ha : a = .text s (some off) := by
        rw [textAt_eq_some_iff] at h
        simpa using h
      subst ha
      simp [findFocusAux]
    | succ k =>
      rw [textAt_cons_succ] at h
      have ha : isFocusedNode a = false := by
        have := hmin 0 (by omega)
        rwa [isFocusedIdx_cons_zero] at this
      rw [findFocusAux_cons_not_focused ha]
      have := ih (b + 1) k s off h
        (fun m hm => by
          have := hmin (m + 1) (by omega)
          rwa [isFocusedIdx_cons_succ] at this)
      rw [this]
      have : b + 1 + k = b + (k + 1) := by omega
      rw [this]

theorem focused_spec {root : Expr} {i : Nat} {s : List Char} {off : ScreenOffset}
    (h : focused root = some (i, s, off)) :
    textAt (preorder root) i = some (s, some off) ∧
    ∀ m, m < i → isFocusedIdx (preorder root) m = false := by
  have := findFocusAux_spec (preorder root) 0 i s off h
  simpa using this.2

theorem focused_complete {root : Expr} {i : Nat} {s : List Char} {off : ScreenOffset}
    (h1 : textAt (preorder root) i = some (s, some off))
    (h2 : ∀ m, m < i → isFocusedIdx (preorder root) m = false) :
    focused root = some (i, s, off) := by
  have := findFocusAux_complete (preorder root) 0 i s off h1 h2
  simpa using this

theorem scanBack_some_spec : ∀ (pre : List Expr) (i j : Nat),
    scanBack pre i = some j →
    j < i ∧ isTextIdx pre j = true ∧ ∀ k, j < k → k < i → isTextIdx pre k = false := by
  intro pre i
  induction i with
  | zero => intro j h; simp [scanBack] at h
  | succ n ih =>
    intro j h
    simp only [scanBack] at h
    by_cases ht : isTextIdx pre n = true
    · rw [if_pos ht] at h
      injection h with h
      subst h
      exact ⟨by omega, ht, fun k hk1 hk2 => by omega⟩
    · rw [if_neg ht] at h
      obtain ⟨h1, h2, h3⟩ := ih j h
      refine ⟨by omega, h2, fun k hk1 hk2 => ?_⟩
      by_cases hkn : k = n
      · subst hkn; simpa using ht
      · exact h3 k hk1 (by omega)

theorem scanBack_complete : ∀ (pre : List Expr) (i j : Nat), j < i →
    isTextIdx pre j = true → (∀ k, j < k → k < i → isTextIdx pre k = false) →
    scanBack pre i = some j := by
  intro pre i
  induction i with
  | zero => intro j h; omega
  | succ n ih =>
    intro j hj ht hmin
    simp only [scanBack]
    by_cases hn : j = n
    · subst hn; rw [if_pos ht]
    · have hfalse : isTextIdx pre n = false := hmin n (by omega) (by omega)
      rw [if_neg (by simp [hfalse])]
      exact ih j (by omega) ht (fun k hk1 hk2 => hmin k hk1 (by omega))

theorem scanBack_none : ∀ (pre : List Expr) (i : Nat),
    (∀ k, k < i → isTextIdx pre k = false) → scanBack pre i = none := by
  intro pre i
  induction i with
  | zero => intro _; simp [scanBack]
  | succ n ih =>
    intro h
    simp only [scanBack]
    rw [if_neg (by simp [h n (by omega)])]
    exact ih (fun k hk => h k (by omega))

theorem isTextIdx_drop (pre : List Expr) (m t : Nat) :
    isTextIdx (pre.drop m) t = isTextIdx pre (m + t) := by
  simp [isTextIdx, List.getElem?_drop]

theorem scanFwdAux_spec : ∀ (l : List Expr) (b j : Nat), scanFwdAux l b = some j →
    b ≤ j ∧ isTextIdx l (j - b) = true ∧
    ∀ m, m < j - b → isTextIdx l m = false := by
  intro l
  induction l with
  | nil => intro b j h; simp [scanFwdAux] at h
  | cons a rest ih =>
    intro b j h
    cases a with
    | text s c =>
      simp only [scanFwdAux, Option.some.injEq] at h
      subst h
      refine ⟨Nat.le_refl _, by simp [isTextIdx], ?_⟩
      intro m hm; omega
    | row items =>
      simp only [scanFwdAux] at h
      obtain ⟨h1, h2, h3⟩ := ih (b + 1) j h
      refine ⟨by omega, ?_, ?_⟩
      · have hd : j - b = (j - (b + 1)) + 1 := by omega
        rw [hd, isTextIdx_cons_succ]; exact h2
      · intro m hm
        cases m with
        | zero => rw [isTextIdx_cons_zero]; rfl
        | succ m => rw [isTextIdx_cons_succ]; exact h3 m (by omega)
    | frac n d =>
      simp only [scanFwdAux] at h
      obtain ⟨h1, h2, h3⟩ := ih (b + 1) j h
      refine ⟨by omega, ?_, ?_⟩
      · have hd : j - b = (j - (b + 1)) + 1 := by omega
        rw [hd, isTextIdx_cons_succ]; exact h2
      · intro m hm
        cases m with
        | zero => rw [isTextIdx_cons_zero]; rfl
        | succ m => rw [isTextIdx_cons_succ]; exact h3 m (by omega)
    | paren x =>
      simp only [scanFwdAux] at h
      obtain ⟨h1, h2, h3⟩ := ih (b + 1) j h
      refine ⟨by omega, ?_, ?_⟩
      · have hd : j - b = (j - (b + 1)) + 1 := by omega
        rw [hd, isTextIdx_cons_succ]; exact h2
      · intro m hm
        cases m with
        | zero => rw [isTextIdx_cons_zero]; rfl
        | succ m => rw [isTextIdx_cons_succ]; exact h3 m (by omega)

theorem scanFwdAux_none_spec : ∀ (l : List Expr) (b : Nat), scanFwdAux l b = none →
    ∀ m, isTextIdx l m = false := by
  intro l
  induction l with
  | nil => intro b _ m; simp [isTextIdx]
  | cons a rest ih =>
    intro b h m
    cases a with
    | text s c => simp [scanFwdAux] at h
    | row items =>
      simp only [scanFwdAux] at h
      cases m with
      | zero => rw [isTextIdx_cons_zero]; rfl
      | succ m => rw [isTextIdx_cons_succ]; exact ih (b + 1) h m
    | frac n d =>
      simp only [scanFwdAux] at h
      cases m with
      | zero => rw [isTextIdx_cons_zero]; rfl
      | succ m => rw [isTextIdx_cons_succ]; exact ih (b + 1) h m
    | paren x =>
      simp only [scanFwdAux] at h
      cases m with
      | zero => rw [isTextIdx_cons_zero]; rfl
      | succ m => rw [isTextIdx_cons_succ]; exact ih (b + 1) h m

theorem scanFwd_some_spec {pre : List Expr} {i j : Nat} (h : scanFwd pre i = some j) :
    i < j ∧ isTextIdx pre j = true ∧
    ∀ k, i < k → k < j → isTextIdx pre k = false := by
  obtain ⟨h1, h2, h3⟩ := scanFwdAux_spec (pre.drop (i + 1)) (i + 1) j h
  rw [isTextIdx_drop] at h2
  have hj : i + 1 + (j - (i + 1)) = j := by omega
  rw [hj] at h2
  refine ⟨by omega, h2, fun k hk1 hk2 => ?_⟩
  have := h3 (k - (i + 1)) (by omega)
  rw [isTextIdx_drop] at this
  have hk : i + 1 + (k - (i + 1)) = k := by omega
  rwa [hk] at this

theorem scanFwd_isSome_of_exists {pre : List Expr} {i k : Nat} (hik : i < k)
    (hk : isTextIdx pre k = true) : ∃ j, scanFwd pre i = some j := by
  match h : scanFwd pre i with
  | some j => exact ⟨j, rfl⟩
  | none =>
    exfalso
    have := scanFwdAux_none_spec (pre.drop (i + 1)) (i + 1) h (k - (i + 1))
    rw [isTextIdx_drop] at this
    have hkk : i + 1 + (k - (i + 1)) = k := by omega
    rw [hkk] at this
    rw [hk] at this
    exact Bool.true_eq_false.mp this

/-! ### Cursor counting over the flattening -/

mutual

theorem cursorCount_eq_countP : ∀ e : Expr,
    cursorCount e = (preorder e).countP (fun n => isFocusedNode n)
  | .text s c => by
    cases c <;> simp [cursorCount, preorder, List.countP_cons, isFocusedNode]
  | .row items => by
    rw [preorder_row, List.countP_cons]
    simp [cursorCount, isFocusedNode, cursorCountList_eq_countP items]
  | .frac num den => by
    rw [preorder_frac, List.countP_cons, List.countP_append]
    simp [cursorCount, isFocusedNode, cursorCount_eq_countP num,
      cursorCount_eq_countP den]
  | .paren x => by
    rw [preorder_paren, List.countP_cons]
    simp [cursorCount, isFocusedNode, cursorCount_eq_countP x]

theorem cursorCountList_eq_countP : ∀ es : List Expr,
    cursorCountList es = (preorderList es).countP (fun n => isFocusedNode n)
  | [] => by simp [cursorCountList, preorderList]
  | x :: xs => by
    rw [preorderList_cons, List.countP_append]
    simp [cursorCountList, cursorCount_eq_countP x, cursorCountList_eq_countP xs]

end

theorem isFocusedIdx_true_iff {pre : List Expr} {k : Nat} :
    isFocusedIdx pre k = true ↔
      ∃ n, pre[k]? = some n ∧ isFocusedNode n = true := by
  unfold isFocusedIdx
  match h : pre[k]? with
  | none => simp
  | some (.text s (some off)) => simp [isFocusedNode]
  | some (.text s none) => simp [isFocusedNode]
  | some (.row items) => simp [isFocusedNode]
  | some (.frac n d) => simp [isFocusedNode]
  | some (.paren x) => simp [isFocusedNode]

theorem countP_two {l : List Expr} {p : Expr → Bool} {i j : Nat} {a b : Expr}
    (hij : i < j) (hi : l[i]? = some a) (hj : l[j]? = some b)
    (hpa : p a = true) (hpb : p b = true) : 2 ≤ l.countP p := by
  have hsplit : l = l.take j ++ l.drop j := (List.take_append_drop j l).symm
  have hta : (l.take j)[i]? = some a := by
    rw [List.getElem?_take]
    simp [hij, hi]
  have hda : (l.drop j)[0]? = some b := by
    rw [List.getElem?_drop]
    simpa using hj
  have hma : a ∈ l.take j := List.getElem?_mem hta
  have hmb : b ∈ l.drop j := List.getElem?_mem hda
  have h1 : 0 < (l.take j).countP p := List.countP_pos_iff.mpr ⟨a, hma, hpa⟩
  have h2 : 0 < (l.drop j).countP p := List.countP_pos_iff.mpr ⟨b, hmb, hpb⟩
  calc 2 ≤ (l.take j).countP p + (l.drop j).countP p := by omega
    _ = l.countP p := by rw [← List.countP_append, ← hsplit]

/-- Under the at-most-one-cursor invariant, the focused index is the
only index of the flattening holding a cursor-owning `Text`. -/
theorem focused_unique {root : Expr} {i : Nat} {s : List Char} {off : ScreenOffset}
    (hcount : cursorCount root ≤ 1)
    (hfoc : textAt (preorder root) i = some (s, some off)) :
    ∀ k, k ≠ i → isFocusedIdx (preorder root) k = false := by
  intro k hk
  by_contra hcon
  rw [Bool.not_eq_false, isFocusedIdx_true_iff] at hcon
  obtain ⟨n, hn, hpn⟩ := hcon
  rw [textAt_eq_some_iff] at hfoc
  have hpi : isFocusedNode (.text s (some off)) = true := by simp [isFocusedNode]
  have h2 : 2 ≤ (preorder root).countP (fun n => isFocusedNode n) := by
    rcases Nat.lt_or_ge k i with hki | hki
    · exact countP_two hki hn hfoc hpn hpi
    · have : i < k := by omega
      exact countP_two this hfoc hn hpi hpn
  rw [← cursorCount_eq_countP] at h2
  omega

theorem findFocusAux_isSome : ∀ (l : List Expr) (b : Nat),
    (∃ (k : Nat) (n : Expr), l[k]? = some n ∧ isFocusedNode n = true) →
    (findFocusAux l b).isSome = true := by
  intro l
  induction l with
  | nil =>
    intro b h
    obtain ⟨k, n, hk, _⟩ := h
    simp at hk
  | cons a rest ih =>
    intro b h
    obtain ⟨k, n, hk, hn⟩ := h
    by_cases ha : isFocusedNode a = true
    · cases a with
      | text s c =>
        cases c with
        | some off => simp [findFocusAux]
        | none => simp [isFocusedNode] at ha
      | row items => simp [isFocusedNode] at ha
      | frac nn d => simp [isFocusedNode] at ha
      | paren x => simp [isFocusedNode] at ha
    · rw [Bool.not_eq_true] at ha
      rw [findFocusAux_cons_not_focused ha]
      apply ih (b + 1)
      cases k with
      | zero =>
        simp only [List.getElem?_cons_zero, Option.some.injEq] at hk
        subst hk
        rw [hn] at ha
        exact absurd ha (by simp)
      | succ k =>
        rw [List.getElem?_cons_succ] at hk
        exact ⟨k, n, hk, hn⟩

/-- "Some `Text` node owns the cursor" (the dispatch finds a handler)
is exactly "the tree's cursor count is positive". -/
theorem focused_isSome_iff (root : Expr) :
    (focused root).isSome = true ↔ 1 ≤ cursorCount root := by
  constructor
  · intro h
    match hf : focused root with
    | none => rw [hf] at h; simp at h
    | some (i, s, off) =>
      obtain ⟨h1, _⟩ := focused_spec hf
      rw [textAt_eq_some_iff] at h1
      have hm : (Expr.text s (some off)) ∈ preorder root := List.getElem?_mem h1
      have : 0 < (preorder root).countP (fun n => isFocusedNode n) :=
        List.countP_pos_iff.mpr ⟨_, hm, by simp [isFocusedNode]⟩
      rw [← cursorCount_eq_countP] at this
      omega
  · intro h
    have : 0 < (preorder root).countP (fun n => isFocusedNode n) := by
      rw [← cursorCount_eq_countP]; omega
    obtain ⟨n, hmem, hn⟩ := List.countP_pos_iff.mp this
    obtain ⟨k, hk⟩ := List.getElem?_of_mem hmem
    exact findFocusAux_isSome (preorder root) 0 ⟨k, n, hk, hn⟩

theorem textAt_of_isTextIdx {pre : List Expr} {j : Nat} (h : isTextIdx pre j = true) :
    ∃ s c, textAt pre j = some (s, c) := by
  rw [isTextIdx_eq_isSome] at h
  match h2 : textAt pre j with
  | some (s, c) => exact ⟨s, c, rfl⟩
  | none => rw [h2] at h; simp at h

theorem isFocusedIdx_eq (pre : List Expr) (m : Nat) :
    isFocusedIdx pre m =
      match textAt pre m with
      | some (_, some _) => true
      | _ => false := by
  unfold isFocusedIdx textAt
  match h : pre[m]? with
  | none => simp
  | some (.text s (some off)) => simp
  | some (.text s none) => simp
  | some (.row items) => simp
  | some (.frac a b) => simp
  | some (.paren x) => simp

theorem isFocusedIdx_false_of_none {pre : List Expr} {m : Nat} {s : List Char}
    (h : textAt pre m = some (s, none)) : isFocusedIdx pre m = false := by
  rw [isFocusedIdx_eq, h]

theorem isTextNode_applyAt (e : Expr) (i : Nat)
    (f : List Char → Option ScreenOffset → List Char × Option ScreenOffset) :
    isTextNode (applyAt e i f) = isTextNode e := by
  cases e with
  | text s c => simp only [applyAt]; split <;> simp [isTextNode]
  | row items => simp only [applyAt]; split <;> simp [isTextNode]
  | frac n d =>
    simp only [applyAt]
    split
    · simp [isTextNode]
    · split <;> simp [isTextNode]
  | paren x => simp only [applyAt]; split <;> simp [isTextNode]

theorem isTextIdx_applyAt {e : Expr} {i : Nat} {s : List Char}
    {c : Option ScreenOffset}
    {f : List Char → Option ScreenOffset → List Char × Option ScreenOffset}
    (hfoc : textAt (preorder e) i = some (s, c)) (k : Nat) :
    isTextIdx (preorder (applyAt e i f)) k = isTextIdx (preorder e) k := by
  by_cases hk : k = i
  · subst hk
    obtain ⟨h1, _, _, _⟩ := applyAt_spec e k f s c hfoc
    rw [isTextIdx_eq_isSome, isTextIdx_eq_isSome, h1, hfoc]
    rfl
  · obtain ⟨_, h2, _, _⟩ := applyAt_spec e i f s c hfoc
    rw [isTextIdx_eq_isSome, isTextIdx_eq_isSome, h2 k hk]

theorem preorder_of_isTextNode {root : Expr} (h : isTextNode root = true) :
    preorder root = [root] := by
  cases root with
  | text s c => rfl
  | row items => simp [isTextNode] at h
  | frac n d => simp [isTextNode] at h
  | paren x => simp [isTextNode] at h

theorem cursorCount_applyAt_of_some {root : Expr} {i : Nat} {s : List Char}
    {off : ScreenOffset}
    {f : List Char → Option ScreenOffset → List Char × Option ScreenOffset}
    (hfoc : textAt (preorder root) i = some (s, some off))
    (hsome : ((f s (some off)).2).isSome = true) :
    cursorCount (applyAt root i f) = cursorCount root := by
  obtain ⟨_, _, h3, _⟩ := applyAt_spec root i f s (some off) hfoc
  cases h2 : (f s (some off)).2 with
  | none => rw [h2] at hsome; simp at hsome
  | some o => rw [h2] at h3; simp [cBit] at h3; omega

theorem cursorCount_moveUp_le {root : Expr} {i : Nat} {s : List Char}
    {off : ScreenOffset}
    (hfoc : textAt (preorder root) i = some (s, some off))
    (hcount : cursorCount root ≤ 1) :
    cursorCount (moveUp root i) ≤ 1 := by
  cases hs : scanBack (preorder root) i with
  | none => simpa [moveUp, hs] using hcount
  | some j =>
    simp only [moveUp, hs]
    obtain ⟨hj1, hj2, _⟩ := scanBack_some_spec _ _ _ hs
    obtain ⟨s2, c2, hj3⟩ := textAt_of_isTextIdx hj2
    obtain ⟨g1, g2, g3, g4⟩ :=
      applyAt_spec root i (fun s _ => (s, none)) s (some off) hfoc
    have hj3b :
        textAt (preorder (applyAt root i (fun s _ => (s, none)))) j = some (s2, c2) := by
      rw [g2 j (by omega)]; exact hj3
    obtain ⟨k1, k2, k3, k4⟩ :=
      applyAt_spec _ j (fun s _ => (s, some ⟨0, s.length⟩)) s2 c2 hj3b
    simp [cBit] at g3 k3
    omega

theorem cursorCount_moveDown_le {root : Expr} {i : Nat} {s : List Char}
    {off : ScreenOffset}
    (hfoc : textAt (preorder root) i = some (s, some off))
    (hcount : cursorCount root ≤ 1) :
    cursorCount (moveDown root i) ≤ 1 := by
  cases hs : scanFwd (preorder root) i with
  | none => simpa [moveDown, hs] using hcount
  | some j =>
    simp only [moveDown, hs]
    obtain ⟨hj1, hj2, _⟩ := scanFwd_some_spec hs
    obtain ⟨s2, c2, hj3⟩ := textAt_of_isTextIdx hj2
    obtain ⟨g1, g2, g3, g4⟩ :=
      applyAt_spec root i (fun s _ => (s, none)) s (some off) hfoc
    have hj3b :
        textAt (preorder (applyAt root i (fun s _ => (s, none)))) j = some (s2, c2) := by
      rw [g2 j (by omega)]; exact hj3
    obtain ⟨k1, k2, k3, k4⟩ :=
      applyAt_spec _ j (fun s _ => (s, some ⟨0, 0⟩)) s2 c2 hj3b
    simp [cBit] at g3 k3
    omega

/-! ### Claim theorems: key handling -/

/-- C3 (counterexample): for the tree `Text("a")` with its cursor at
column 0, a key outside the recognized taxonomy (non-printable, none of
backspace/left/right/up/down) IS consumed: `press_key` returns `True`
(the final `return True` of `Text.press_key` runs regardless of the key),
refuting the claim that it returns false — although the tree state is
indeed unchanged. -/
theorem c3_counterexample :
    (pressKey (.text ['a'] (some ⟨0, 0⟩)) Key.other).accepted = true ∧
    (pressKey (.text ['a'] (some ⟨0, 0⟩)) Key.other).tree
      = .text ['a'] (some ⟨0, 0⟩) := by
  exact ⟨rfl, rfl⟩

/-- C3 (amended): for every tree in which some `Text` node owns the
cursor, a key outside the recognized taxonomy is consumed — `press_key`
returns `True` — but the tree state is unchanged (and no diagnostic is
printed). -/
theorem c3_amended_unrecognized_key_consumed (root : Expr)
    (h : 1 ≤ cursorCount root) :
    pressKey root Key.other = ⟨root, true, 0⟩ := by
  have hf : (focused root).isSome = true := (focused_isSome_iff root).mpr h
  match hfo : focused root with
  | none => rw [hfo] at hf; simp at hf
  | some (i, s, off) => simp [pressKey, hfo, handleKey]

/-- C3 (witness): the amended theorem applied to `Row(Text("ab"))` with
the cursor at column 1. -/
theorem c3_witness :
    pressKey (.row [.text ['a', 'b'] (some ⟨0, 1⟩)]) Key.other
      = ⟨.row [.text ['a', 'b'] (some ⟨0, 1⟩)], true, 0⟩ :=
  c3_amended_unrecognized_key_consumed (.row [.text ['a', 'b'] (some ⟨0, 1⟩)])
    (by decide)

/-- C4: every key-event transition preserves the at-most-one-cursor
invariant: if at most one `Text` node owns a cursor before `press_key`,
at most one owns a cursor afterwards (move-up/move-down clear the old
leaf's cursor before setting the target's, all other branches keep the
cursor on the focused leaf). -/
theorem c4_cursor_uniqueness_preserved (root : Expr) (key : Key)
    (hcount : cursorCount root ≤ 1) :
    cursorCount (pressKey root key).tree ≤ 1 := by
  cases hf : focused root with
  | none => simpa [pressKey, hf] using hcount
  | some v =>
    obtain ⟨i, s, off⟩ := v
    obtain ⟨hfoc, _⟩ := focused_spec hf
    simp only [pressKey, hf]
    cases key with
    | printable ch =>
      simp only [handleKey]
      rw [cursorCount_applyAt_of_some hfoc (by simp)]
      exact hcount
    | backspace =>
      simp only [handleKey]
      by_cases h0 : off.col = 0
      · simp only [h0, if_pos rfl]; exact hcount
      · rw [if_neg h0]
        rw [cursorCount_applyAt_of_some hfoc (by simp)]
        exact hcount
    | left =>
      simp only [handleKey]
      by_cases h0 : 0 < off.col
      · rw [if_pos h0]
        rw [cursorCount_applyAt_of_some hfoc (by simp)]
        exact hcount
      · rw [if_neg h0]
        by_cases hroot : isTextNode root = true
        · simp only [hroot, if_pos rfl]; exact hcount
        · rw [if_neg (by simp [Bool.not_eq_true] at hroot ⊢; exact hroot)]
          exact cursorCount_moveUp_le hfoc hcount
    | right =>
      simp only [handleKey]
      by_cases h0 : off.col < s.length
      · rw [if_pos h0]
        rw [cursorCount_applyAt_of_some hfoc (by simp)]
        exact hcount
      · rw [if_neg h0]
        by_cases hroot : isTextNode root = true
        · simp only [hroot, if_pos rfl]; exact hcount
        · rw [if_neg (by simp [Bool.not_eq_true] at hroot ⊢; exact hroot)]
          exact cursorCount_moveDown_le hfoc hcount
    | up =>
      simp only [handleKey]
      by_cases hroot : isTextNode root = true
      · simp only [hroot, if_pos rfl]; exact hcount
      · rw [if_neg (by simp [Bool.not_eq_true] at hroot ⊢; exact hroot)]
        exact cursorCount_moveUp_le hfoc hcount
    | down =>
      simp only [handleKey]
      by_cases hroot : isTextNode root = true
      · simp only [hroot, if_pos rfl]; exact hcount
      · rw [if_neg (by simp [Bool.not_eq_true] at hroot ⊢; exact hroot)]
        exact cursorCount_moveDown_le hfoc hcount
    | other => simp only [handleKey]; exact hcount

/-- C4 (witness): the invariant-preservation theorem applied to the
two-leaf row with the cursor at the end of the first leaf and a
move-right key (which transfers the cursor across leaves). -/
theorem c4_witness :
    cursorCount (pressKey (.row [.text ['a'] (some ⟨0, 1⟩), .text ['b'] none])
      Key.right).tree ≤ 1 :=
  c4_cursor_uniqueness_preserved (.row [.text ['a'] (some ⟨0, 1⟩), .text ['b'] none])
    Key.right (by decide)

/-- C8: for a focused `Text` leaf (pre-order index `i`, text `s`,
cursor `off`), erase-backward at column 0 is a consumed no-op with
exactly one diagnostic (`eprint("SPECIAL ACTION")`) and no raise; at
column `c` with `0 < c ≤ s.length` — the data-model invariant, column
at most the text width — the call completes without raising, deletes
exactly the character at index `c - 1` (one diagnostic,
`eprint("REMOVE: ...")`), decrements the cursor column, and touches no
other node. Beyond the invariant (`c > s.length`) the source raises
`IndexError` from the diagnostic's index expression before mutating
anything, captured by `pressKeyRaises`. -/
theorem c8_backspace_semantics (root : Expr) (i : Nat) (s : List Char)
    (off : ScreenOffset) (hf : focused root = some (i, s, off)) :
    (off.col = 0 →
      pressKey root Key.backspace = ⟨root, true, 1⟩ ∧
      pressKeyRaises root Key.backspace = false) ∧
    (0 < off.col → off.col ≤ s.length →
      pressKeyRaises root Key.backspace = false ∧
      (pressKey root Key.backspace).accepted = true ∧
      (pressKey root Key.backspace).diags = 1 ∧
      textAt (preorder (pressKey root Key.backspace).tree) i =
        some (s.eraseIdx (off.col - 1), some ⟨off.row, off.col - 1⟩) ∧
      ∀ k, k ≠ i →
        textAt (preorder (pressKey root Key.backspace).tree) k =
          textAt (preorder root) k) ∧
    (s.length < off.col → pressKeyRaises root Key.backspace = true) := by
  obtain ⟨hfoc, _⟩ := focused_spec hf
  refine ⟨?_, ?_, ?_⟩
  · intro h0
    constructor
    · simp [pressKey, hf, handleKey, h0]
    · simp [pressKeyRaises, hf, h0]
  · intro hpos hle
    have h0 : ¬ off.col = 0 := by omega
    have htree : (pressKey root Key.backspace).tree =
        applyAt root i
          (fun s0 _ => (s0.take (off.col - 1) ++ s0.drop off.col,
                        some ⟨off.row, off.col - 1⟩)) := by
      simp [pressKey, hf, handleKey, h0]
    obtain ⟨g1, g2, _, _⟩ := applyAt_spec root i
      (fun s0 _ => (s0.take (off.col - 1) ++ s0.drop off.col,
                    some ⟨off.row, off.col - 1⟩)) s (some off) hfoc
    refine ⟨?_, by simp [pressKey, hf], by simp [pressKey, hf, handleKey, h0],
      ?_, ?_⟩
    · simp only [pressKeyRaises, hf, h0, if_false]
      simp
      omega
    · rw [htree]
      have herase : s.eraseIdx (off.col - 1)
          = s.take (off.col - 1) ++ s.drop off.col := by
        rw [List.eraseIdx_eq_take_drop_succ]
        congr 1
        congr 1
        omega
      rw [herase]
      simpa using g1
    · intro k hk
      rw [htree]
      exact g2 k hk
  · intro hgt
    have h0 : ¬ off.col = 0 := by omega
    simp only [pressKeyRaises, hf, h0, if_false]
    simp
    omega

/-- C8 (witness): the backspace theorem applied to
`Row(Text("ab"), Text("c"))` with the cursor at column 2 of the first
leaf (within the invariant, column 2 = text length): the deletion
branch applies, removing `'b'`. -/
theorem c8_witness :
    textAt (preorder (pressKey (.row [.text ['a', 'b'] (some ⟨0, 2⟩), .text ['c'] none])
        Key.backspace).tree) 1 =
      some ((['a', 'b'] : List Char).eraseIdx 1, some ⟨0, 1⟩) :=
  ((c8_backspace_semantics (.row [.text ['a', 'b'] (some ⟨0, 2⟩), .text ['c'] none])
    1 ['a', 'b'] ⟨0, 2⟩ rfl).2.1 (by decide) (by decide)).2.2.2.1

/-- C6: a move-up event delivered to a tree whose focused leaf sits at
pre-order index `i`: if no `Text` node precedes index `i` in the
flattening, the event is consumed and the tree is unchanged (this also
covers a `Text` root, where vertical movement is cancelled); if some
`Text` precedes it, the closest preceding one (index `j`, text `s2`) —
the first found when scanning backward — receives the cursor at row 0,
column `s2.length` (end of text), the focused leaf's cursor is cleared,
and every other node is untouched. -/
theorem c6_move_up_semantics (root : Expr) (i : Nat) (s : List Char)
    (off : ScreenOffset) (hf : focused root = some (i, s, off)) :
    ((∀ k, k < i → isTextIdx (preorder root) k = false) →
      (pressKey root Key.up).tree = root ∧ (pressKey root Key.up).accepted = true) ∧
    (∀ j s2 c2, j < i → textAt (preorder root) j = some (s2, c2) →
      (∀ k, j < k → k < i → isTextIdx (preorder root) k = false) →
      (pressKey root Key.up).accepted = true ∧
      textAt (preorder (pressKey root Key.up).tree) i = some (s, none) ∧
      textAt (preorder (pressKey root Key.up).tree) j =
        some (s2, some ⟨0, s2.length⟩) ∧
      ∀ k, k ≠ i → k ≠ j →
        textAt (preorder (pressKey root Key.up).tree) k =
          textAt (preorder root) k) := by
  obtain ⟨hfoc, _⟩ := focused_spec hf
  constructor
  · intro hnone
    by_cases hroot : isTextNode root = true
    · constructor <;> simp [pressKey, hf, handleKey, hroot]
    · rw [Bool.not_eq_true] at hroot
      have hscan : scanBack (preorder root) i = none := scanBack_none _ _ hnone
      constructor <;> simp [pressKey, hf, handleKey, hroot, moveUp, hscan]
  · intro j s2 c2 hji hj hmin
    have hjt : isTextIdx (preorder root) j = true := by
      rw [isTextIdx_eq_isSome, hj]; rfl
    have hscan : scanBack (preorder root) i = some j :=
      scanBack_complete _ _ _ hji hjt hmin
    have hroot : isTextNode root = false := by
      cases hr : isTextNode root with
      | false => rfl
      | true =>
        exfalso
        have hp := preorder_of_isTextNode hr
        rw [hp] at hfoc
        cases i with
        | zero => omega
        | succ n => rw [textAt_cons_succ] at hfoc; simp [textAt] at hfoc
    have htree : (pressKey root Key.up).tree =
        applyAt (applyAt root i (fun s _ => (s, none))) j
          (fun s _ => (s, some ⟨0, s.length⟩)) := by
      simp [pressKey, hf, handleKey, hroot, moveUp, hscan]
    obtain ⟨g1, g2, _, _⟩ :=
      applyAt_spec root i (fun s _ => (s, none)) s (some off) hfoc
    have hj1 : textAt (preorder (applyAt root i (fun s _ => (s, none)))) j =
        some (s2, c2) := by
      rw [g2 j (by omega)]; exact hj
    obtain ⟨k1, k2, _, _⟩ :=
      applyAt_spec _ j (fun s _ => (s, some ⟨0, s.length⟩)) s2 c2 hj1
    refine ⟨by simp [pressKey, hf], ?_, ?_, ?_⟩
    · rw [htree, k2 i (by omega)]
      simpa using g1
    · rw [htree]
      simpa using k1
    · intro k hki hkj
      rw [htree, k2 k hkj, g2 k hki]

/-- C6 (witness): the move-up theorem applied to
`Row(Text("ab"), Fraction(Text("1"), Text("2")))` with the cursor in the
denominator leaf. The flattening is
`[Row, Text "ab", Fraction, Text "1", Text "2"]`, so the focused leaf is
index 4 and the closest preceding `Text` is the numerator at index 3,
which receives the cursor at its text end. -/
theorem c6_witness :
    (pressKey (.row [.text ['a', 'b'] none,
        .frac (.text ['1'] none) (.text ['2'] (some ⟨0, 0⟩))]) Key.up).accepted
        = true ∧
    textAt (preorder (pressKey (.row [.text ['a', 'b'] none,
        .frac (.text ['1'] none) (.text ['2'] (some ⟨0, 0⟩))]) Key.up).tree) 4 =
      some (['2'], none) ∧
    textAt (preorder (pressKey (.row [.text ['a', 'b'] none,
        .frac (.text ['1'] none) (.text ['2'] (some ⟨0, 0⟩))]) Key.up).tree) 3 =
      some (['1'], some ⟨0, (['1'] : List Char).length⟩) := by
  have h := (c6_move_up_semantics (.row [.text ['a', 'b'] none,
      .frac (.text ['1'] none) (.text ['2'] (some ⟨0, 0⟩))]) 4 ['2'] ⟨0, 0⟩ rfl).2
      3 ['1'] none (by omega) rfl
      (fun k hk1 hk2 => by omega)
  exact ⟨h.1, h.2.1, h.2.2.1⟩

/-- C5: if the cursor sits at the end column (`off.col = s.length`) of
the focused leaf (pre-order index `i`) of a tree with exactly one
cursor, and some `Text` leaf follows position `i` in pre-order, then
move-right transfers the cursor to the first following `Text` leaf
(index `j`, at column 0) and a subsequent move-left brings it back to
leaf `i` at the original column, leaving every other node untouched. -/
theorem c5_move_right_then_left_round_trip (root : Expr) (i : Nat) (s : List Char)
    (off : ScreenOffset) (k0 : Nat)
    (hf : focused root = some (i, s, off))
    (hcount : cursorCount root = 1)
    (hend : off.col = s.length)
    (hk0 : i < k0) (hk0t : isTextIdx (preorder root) k0 = true) :
    ∃ j s2,
      i < j ∧
      (pressKey root Key.right).accepted = true ∧
      textAt (preorder (pressKey root Key.right).tree) j = some (s2, some ⟨0, 0⟩) ∧
      (pressKey (pressKey root Key.right).tree Key.left).accepted = true ∧
      textAt (preorder (pressKey (pressKey root Key.right).tree Key.left).tree) i =
        some (s, some ⟨0, off.col⟩) ∧
      textAt (preorder (pressKey (pressKey root Key.right).tree Key.left).tree) j =
        some (s2, none) ∧
      ∀ k, k ≠ i → k ≠ j →
        textAt (preorder (pressKey (pressKey root Key.right).tree Key.left).tree) k =
          textAt (preorder root) k := by
  obtain ⟨hfoc, _⟩ := focused_spec hf
  have hroot : isTextNode root = false := by
    cases hr : isTextNode root with
    | false => rfl
    | true =>
      exfalso
      have hp := preorder_of_isTextNode hr
      rw [isTextIdx_eq_isSome, hp] at hk0t
      cases k0 with
      | zero => omega
      | succ n =>
        rw [textAt_cons_succ] at hk0t
        simp [textAt] at hk0t
  obtain ⟨j, hscanF⟩ := scanFwd_isSome_of_exists hk0 hk0t
  obtain ⟨hij, hjt, hjmin⟩ := scanFwd_some_spec hscanF
  obtain ⟨s2, c2, hjtext⟩ := textAt_of_isTextIdx hjt
  have hnlt : ¬ off.col < s.length := by omega
  have htree1 : (pressKey root Key.right).tree =
      applyAt (applyAt root i (fun s _ => (s, none))) j
        (fun s _ => (s, some ⟨0, 0⟩)) := by
    simp [pressKey, hf, handleKey, hnlt, hroot, moveDown, hscanF]
  have hacc1 : (pressKey root Key.right).accepted = true := by simp [pressKey, hf]
  obtain ⟨g1, g2, _, _⟩ :=
    applyAt_spec root i (fun s _ => (s, none)) s (some off) hfoc
  have hj1 : textAt (preorder (applyAt root i (fun s _ => (s, none)))) j =
      some (s2, c2) := by
    rw [g2 j (by omega)]; exact hjtext
  obtain ⟨k1, k2, _, _⟩ := applyAt_spec _ j (fun s _ => (s, some ⟨0, 0⟩)) s2 c2 hj1
  set t1 := applyAt (applyAt root i (fun s _ => (s, none))) j
    (fun s _ => (s, some ⟨0, 0⟩)) with ht1
  have ht1j : textAt (preorder t1) j = some (s2, some ⟨0, 0⟩) := by simpa using k1
  have ht1i : textAt (preorder t1) i = some (s, none) := by
    rw [k2 i (by omega)]
    simpa using g1
  have ht1other : ∀ k, k ≠ i → k ≠ j →
      textAt (preorder t1) k = textAt (preorder root) k := by
    intro k hki hkj
    rw [k2 k hkj, g2 k hki]
  have huniq : ∀ k, k ≠ i → isFocusedIdx (preorder root) k = false :=
    focused_unique (by omega) hfoc
  have hfoc1 : focused t1 = some (j, s2, ⟨0, 0⟩) := by
    apply focused_complete ht1j
    intro m hm
    by_cases hmi : m = i
    · subst hmi; exact isFocusedIdx_false_of_none ht1i
    · rw [isFocusedIdx_eq, ht1other m hmi (by omega), ← isFocusedIdx_eq]
      exact huniq m hmi
  have hroot1 : isTextNode t1 = false := by
    rw [ht1, isTextNode_applyAt, isTextNode_applyAt]; exact hroot
  have htextidx1 : ∀ k, isTextIdx (preorder t1) k = isTextIdx (preorder root) k := by
    intro k
    rw [ht1, isTextIdx_applyAt hj1, isTextIdx_applyAt hfoc]
  have hscanB : scanBack (preorder t1) j = some i := by
    apply scanBack_complete _ _ _ hij
    · rw [htextidx1, isTextIdx_eq_isSome, hfoc]; rfl
    · intro k hk1 hk2
      rw [htextidx1]
      exact hjmin k hk1 hk2
  have htree2 : (pressKey t1 Key.left).tree =
      applyAt (applyAt t1 j (fun s _ => (s, none))) i
        (fun s _ => (s, some ⟨0, s.length⟩)) := by
    simp [pressKey, hfoc1, handleKey, hroot1, moveUp, hscanB]
  have hacc2 : (pressKey t1 Key.left).accepted = true := by simp [pressKey, hfoc1]
  obtain ⟨m1, m2, _, _⟩ := applyAt_spec t1 j (fun s _ => (s, none)) s2 (some ⟨0, 0⟩) ht1j
  have hi2 : textAt (preorder (applyAt t1 j (fun s _ => (s, none)))) i =
      some (s, none) := by
    rw [m2 i (by omega)]; exact ht1i
  obtain ⟨n1, n2, _, _⟩ :=
    applyAt_spec _ i (fun s _ => (s, some ⟨0, s.length⟩)) s none hi2
  refine ⟨j, s2, hij, hacc1, ?_, ?_, ?_, ?_, ?_⟩
  · rw [htree1]; exact ht1j
  · rw [htree1]; exact hacc2
  · rw [htree1, htree2, hend]
    simpa using n1
  · rw [htree1, htree2, n2 j (by omega)]
    simpa using m1
  · intro k hki hkj
    rw [htree1, htree2, n2 k hki, m2 k hkj, ht1other k hki hkj]

/-- C5 (witness): the round-trip theorem applied to the spec scenario
`Row(Text("a"), Text("b"))` with the cursor at the end of `Text("a")`
(flattening `[Row, Text "a", Text "b"]`, focused index 1, end column 1). -/
theorem c5_witness :
    ∃ j s2,
      1 < j ∧
      (pressKey (.row [.text ['a'] (some ⟨0, 1⟩), .text ['b'] none])
        Key.right).accepted = true ∧
      textAt (preorder (pressKey (.row [.text ['a'] (some ⟨0, 1⟩), .text ['b'] none])
        Key.right).tree) j = some (s2, some ⟨0, 0⟩) ∧
      (pressKey (pressKey (.row [.text ['a'] (some ⟨0, 1⟩), .text ['b'] none])
        Key.right).tree Key.left).accepted = true ∧
      textAt (preorder (pressKey (pressKey (.row [.text ['a'] (some ⟨0, 1⟩),
        .text ['b'] none]) Key.right).tree Key.left).tree) 1 =
        some (['a'], some ⟨0, (⟨0, 1⟩ : ScreenOffset).col⟩) ∧
      textAt (preorder (pressKey (pressKey (.row [.text ['a'] (some ⟨0, 1⟩),
        .text ['b'] none]) Key.right).tree Key.left).tree) j = some (s2, none) ∧
      ∀ k, k ≠ 1 → k ≠ j →
        textAt (preorder (pressKey (pressKey (.row [.text ['a'] (some ⟨0, 1⟩),
          .text ['b'] none]) Key.right).tree Key.left).tree) k =
          textAt (preorder (.row [.text ['a'] (some ⟨0, 1⟩), .text ['b'] none])) k :=
  c5_move_right_then_left_round_trip
    (.row [.text ['a'] (some ⟨0, 1⟩), .text ['b'] none]) 1 ['a'] ⟨0, 1⟩ 2
    rfl (by decide) rfl (by decide) (by decide)

/-! ### Render invariants -/

theorem strAlign_length_of_le {s : List Char} {w : Nat} (h : s.length ≤ w) :
    (strAlign s w).length = w := by
  unfold strAlign
  split
  · omega
  · simp [List.length_append, List.length_replicate]
    omega

theorem listAlign_some_of_le {ls : List Color} {w : Nat} (h : ls.length ≤ w) :
    ∃ out, listAlign ls w = some out ∧ out.length = w := by
  unfold listAlign
  by_cases h0 : w = 0
  · subst h0
    refine ⟨[], by rw [if_pos rfl], rfl⟩
  · rw [if_neg h0, if_neg (by omega)]
    refine ⟨_, rfl, ?_⟩
    simp [List.length_append, List.length_replicate]
    omega

theorem listAlign_length {ls out : List Color} {w : Nat}
    (h : listAlign ls w = some out) : out.length = w := by
  unfold listAlign at h
  by_cases h0 : w = 0
  · subst h0
    rw [if_pos rfl] at h
    injection h with h
    subst h
    rfl
  · rw [if_neg h0] at h
    by_cases h1 : w < ls.length
    · rw [if_pos h1] at h; exact absurd h (by simp)
    · rw [if_neg h1] at h
      injection h with h
      subst h
      simp [List.length_append, List.length_replicate]
      omega

theorem outWidth_of {r : RenderOutput} {w : Nat} (h1 : r.lines ≠ [])
    (h2 : ∀ l ∈ r.lines, l.length = w) : outWidth r = some w := by
  unfold outWidth
  cases hl : r.lines with
  | nil => exact absurd hl h1
  | cons l ls =>
    have hw : l.length = w := h2 l (by rw [hl]; exact List.mem_cons_self l ls)
    simp only [List.all_eq_true, beq_iff_eq]
    rw [if_pos, hw]
    intro x hx
    have hx2 : x.length = w := h2 x (by rw [hl]; exact List.mem_cons_of_mem l hx)
    omega

theorem outWidth_inj {r : RenderOutput} {w w2 : Nat} (h1 : outWidth r = some w)
    (h2 : outWidth r = some w2) : w = w2 := by
  rw [h1] at h2
  injection h2

theorem maxLen_ge {α : Type} {ls : List (List α)} {l : List α} (h : l ∈ ls) :
    l.length ≤ maxLen ls := by
  induction ls with
  | nil => simp at h
  | cons x xs ih =>
    rcases List.mem_cons.mp h with h | h
    · subst h; simp [maxLen]
    · have := ih h
      simp [maxLen]
      omega

theorem outWidths_cons_elim {r : RenderOutput} {rs : List RenderOutput}
    {ws : List Nat} (h : outWidths (r :: rs) = some ws) :
    ∃ w ws2, ws = w :: ws2 ∧ outWidth r = some w ∧ outWidths rs = some ws2 := by
  unfold outWidths at h
  cases hw : outWidth r with
  | none => rw [hw] at h; exact absurd h (by simp)
  | some w =>
    rw [hw] at h
    cases hws : outWidths rs with
    | none => rw [hws] at h; exact absurd h (by simp)
    | some ws2 =>
      rw [hws] at h
      injection h with h
      exact ⟨w, ws2, h.symm, rfl, rfl⟩

theorem renderList_cons_elim {x : Expr} {xs : List Expr} {rs : List RenderOutput}
    (h : renderList (x :: xs) = some rs) :
    ∃ r rs2, rs = r :: rs2 ∧ render x = some r ∧ renderList xs = some rs2 := by
  unfold renderList at h
  cases hr : render x with
  | none => rw [hr] at h; exact absurd h (by simp)
  | some r =>
    rw [hr] at h
    cases hrs : renderList xs with
    | none => rw [hrs] at h; exact absurd h (by simp)
    | some rs2 =>
      rw [hrs] at h
      injection h with h
      exact ⟨r, rs2, h.symm, rfl, rfl⟩

theorem padAll_good : ∀ (rs : List RenderOutput) (ws : List Nat) (baseline : Nat),
    outWidths rs = some ws → (∀ r ∈ rs, goodOut r) →
    ∀ p ∈ padAll rs ws baseline,
      p.1 ≠ [] ∧ p.1.length = p.2.1.length ∧
      (∀ l ∈ p.1, l.length = p.2.2) ∧ (∀ c ∈ p.2.1, c.length = p.2.2) := by
  intro rs
  induction rs with
  | nil =>
    intro ws baseline _ _ p hp
    simp [padAll] at hp
  | cons r rest ih =>
    intro ws baseline hws hgood p hp
    obtain ⟨w, ws2, hws2, hw, hrest⟩ := outWidths_cons_elim hws
    subst hws2
    simp only [padAll, List.mem_cons] at hp
    rcases hp with hp | hp
    · subst hp
      obtain ⟨w2, hg1, hg2, hg3, hg4, hg5⟩ := hgood r (List.mem_cons_self r rest)
      have hww : w2 = w := outWidth_inj hg5 hw
      subst hww
      refine ⟨?_, ?_, ?_, ?_⟩
      · simp only [padLines]
        intro hcon
        rw [List.append_eq_nil] at hcon
        exact hg1 hcon.2
      · simp [padLines, padColors, hg2]
      · intro l hl
        simp only [padLines, List.mem_append] at hl
        rcases hl with hl | hl
        · rw [List.eq_of_mem_replicate hl]
          simp
        · exact hg3 l hl
      · intro c hc
        simp only [padColors, List.mem_append] at hc
        rcases hc with hc | hc
        · rw [List.eq_of_mem_replicate hc]
          simp
        · exact hg4 c hc
    · exact ih ws2 baseline hrest
        (fun r2 hr2 => hgood r2 (List.mem_cons_of_mem r hr2)) p hp

theorem rowLine_length :
    ∀ (ps : List (List (List Char) × List (List Color) × Nat)) (i : Nat),
    (∀ p ∈ ps, ∀ l ∈ p.1, l.length = p.2.2) →
    (rowLine ps i).length = (ps.map (fun p => p.2.2)).sum := by
  intro ps
  induction ps with
  | nil => intro i _; simp [rowLine]
  | cons p rest ih =>
    intro i hgood
    obtain ⟨ls, cs, w⟩ := p
    simp only [rowLine, List.length_append, List.map_cons, List.sum_cons]
    have hseg : (strAlign ((ls[i]?).getD []) w).length = w := by
      cases hx : ls[i]? with
      | none => simp [strAlign_length_of_le (by simp : ([] : List Char).length ≤ w)]
      | some l =>
        have hmem : l ∈ ls := List.getElem?_mem hx
        have : l.length = w := hgood (ls, cs, w) (List.mem_cons_self _ _) l hmem
        simp [strAlign_length_of_le (by omega : l.length ≤ w)]
    rw [hseg, ih i (fun p2 hp2 => hgood p2 (List.mem_cons_of_mem _ hp2))]

theorem rowColor_good :
    ∀ (ps : List (List (List Char) × List (List Color) × Nat)) (i : Nat),
    (∀ p ∈ ps, ∀ c ∈ p.2.1, c.length = p.2.2) →
    ∃ out, rowColor ps i = some out ∧
      out.length = (ps.map (fun p => p.2.2)).sum := by
  intro ps
  induction ps with
  | nil => intro i _; exact ⟨[], rfl, by simp⟩
  | cons p rest ih =>
    intro i hgood
    obtain ⟨ls, cs, w⟩ := p
    have harg : ((cs[i]?).getD []).length ≤ w := by
      cases hx : cs[i]? with
      | none => simp
      | some c =>
        have hmem : c ∈ cs := List.getElem?_mem hx
        have : c.length = w := hgood (ls, cs, w) (List.mem_cons_self _ _) c hmem
        simp [this]
    obtain ⟨a, ha, halen⟩ := listAlign_some_of_le harg
    obtain ⟨b, hb, hblen⟩ := ih i (fun p2 hp2 => hgood p2 (List.mem_cons_of_mem _ hp2))
    refine ⟨a ++ b, ?_, ?_⟩
    · simp only [rowColor, ha, hb]
    · simp [halen, hblen]

theorem colorRows_good :
    ∀ (ps : List (List (List Char) × List (List Color) × Nat)) (is : List Nat),
    (∀ p ∈ ps, ∀ c ∈ p.2.1, c.length = p.2.2) →
    ∃ out, colorRows ps is = some out ∧ out.length = is.length ∧
      ∀ c ∈ out, c.length = (ps.map (fun p => p.2.2)).sum := by
  intro ps is hgood
  induction is with
  | nil => exact ⟨[], rfl, rfl, by simp⟩
  | cons i rest ih =>
    obtain ⟨c, hc, hclen⟩ := rowColor_good ps i hgood
    obtain ⟨out, hout, houtlen, houtall⟩ := ih
    refine ⟨c :: out, ?_, by simp [houtlen], ?_⟩
    · simp only [colorRows, hc, hout]
    · intro c2 hc2
      rcases List.mem_cons.mp hc2 with hc2 | hc2
      · subst hc2; exact hclen
      · exact houtall c2 hc2

theorem rowAssemble_good {rs : List RenderOutput} {ws : List Nat} {r : RenderOutput}
    (hws : outWidths rs = some ws) (hgood : ∀ r2 ∈ rs, goodOut r2)
    (hne : rs ≠ []) (h : rowAssemble rs ws = some r) : goodOut r := by
  have hpsg := padAll_good rs ws (maxBaseline rs) hws hgood
  obtain ⟨cs, hcs, hcslen, hcsall⟩ :=
    colorRows_good (padAll rs ws (maxBaseline rs))
      (List.range (min
        (maxLen (List.map (fun p => p.1) (padAll rs ws (maxBaseline rs))))
        (maxLen (List.map (fun p => p.2.1) (padAll rs ws (maxBaseline rs))))))
      (fun p hp => (hpsg p hp).2.2.2)
  simp only [rowAssemble, hcs, Option.some.injEq] at h
  subst h
  have hN : 1 ≤ min
      (maxLen (List.map (fun p => p.1) (padAll rs ws (maxBaseline rs))))
      (maxLen (List.map (fun p => p.2.1) (padAll rs ws (maxBaseline rs)))) := by
    cases rs with
    | nil => exact absurd rfl hne
    | cons r0 rest =>
      obtain ⟨w0, ws2, hws2, hw0, _⟩ := outWidths_cons_elim hws
      subst hws2
      have hp0mem : (padLines r0.lines w0 (maxBaseline (r0 :: rest) - r0.baseline),
          padColors r0.colors w0 (maxBaseline (r0 :: rest) - r0.baseline), w0)
          ∈ padAll (r0 :: rest) (w0 :: ws2) (maxBaseline (r0 :: rest)) := by
        simp [padAll]
      obtain ⟨hne0, hlen0, _, _⟩ := hpsg _ hp0mem
      have h1 : 0 < (padLines r0.lines w0
          (maxBaseline (r0 :: rest) - r0.baseline)).length :=
        List.length_pos.mpr hne0
      have hm1 := maxLen_ge (List.mem_map_of_mem (fun p => p.1) hp0mem)
      have hm2 := maxLen_ge (List.mem_map_of_mem (fun p => p.2.1) hp0mem)
      simp only at hm1 hm2 hlen0
      omega
  refine ⟨(List.map (fun p => p.2.2) (padAll rs ws (maxBaseline rs))).sum,
    ?_, ?_, ?_, ?_, ?_⟩
  · intro hcon
    rw [List.map_eq_nil_iff, List.range_eq_nil] at hcon
    omega
  · simp [hcslen]
  · intro l hl
    obtain ⟨i, _, hli⟩ := List.mem_map.mp hl
    subst hli
    exact rowLine_length _ i (fun p hp => (hpsg p hp).2.2.1)
  · intro c hc
    exact hcsall c hc
  · apply outWidth_of
    · intro hcon
      rw [List.map_eq_nil_iff, List.range_eq_nil] at hcon
      omega
    · intro l hl
      obtain ⟨i, _, hli⟩ := List.mem_map.mp hl
      subst hli
      exact rowLine_length _ i (fun p hp => (hpsg p hp).2.2.1)

theorem alignColorRows_good {w : Nat} : ∀ {cs : List (List Color)},
    (∀ c ∈ cs, c.length ≤ w) →
    ∃ out, alignColorRows cs w = some out ∧ out.length = cs.length ∧
      ∀ c ∈ out, c.length = w := by
  intro cs
  induction cs with
  | nil => exact fun _ => ⟨[], rfl, rfl, by simp⟩
  | cons c rest ih =>
    intro h
    obtain ⟨a, ha, halen⟩ := listAlign_some_of_le (h c (List.mem_cons_self _ _))
    obtain ⟨out, hout, l1, l2⟩ := ih (fun c2 hc2 => h c2 (List.mem_cons_of_mem _ hc2))
    refine ⟨a :: out, ?_, by simp [l1], ?_⟩
    · simp only [alignColorRows, ha, hout]
    · intro c2 hc2
      rcases List.mem_cons.mp hc2 with hc2 | hc2
      · subst hc2; exact halen
      · exact l2 c2 hc2

theorem fracAssemble_good {rn rd : RenderOutput} {nw dw : Nat} {r : RenderOutput}
    (hgn : goodOut rn) (hgd : goodOut rd)
    (hnw : outWidth rn = some nw) (hdw : outWidth rd = some dw)
    (h : fracAssemble rn rd nw dw = some r) : goodOut r := by
  obtain ⟨wn, hn1, hn2, hn3, hn4, hn5⟩ := hgn
  obtain ⟨wd, hd1, hd2, hd3, hd4, hd5⟩ := hgd
  rw [← outWidth_inj hn5 hnw] at h
  rw [← outWidth_inj hd5 hdw] at h
  have hnle : wn ≤ 2 * FRAC_PADDING + max wn wd :=
    le_trans (Nat.le_max_left _ _) (Nat.le_add_left _ _)
  have hdle : wd ≤ 2 * FRAC_PADDING + max wn wd :=
    le_trans (Nat.le_max_right _ _) (Nat.le_add_left _ _)
  obtain ⟨ncs, hncs, hnlen, hnall⟩ :=
    @alignColorRows_good (2 * FRAC_PADDING + max wn wd)
      rn.colors (fun c hc => by rw [hn4 c hc]; omega)
  obtain ⟨dcs, hdcs, hdlen, hdall⟩ :=
    @alignColorRows_good (2 * FRAC_PADDING + max wn wd)
      rd.colors (fun c hc => by rw [hd4 c hc]; omega)
  by_cases hcur : (rn.cursor.isSome && rd.cursor.isSome) = true
  · simp only [fracAssemble, hcur, if_true] at h
    exact absurd h (by simp)
  · simp only [fracAssemble, hcur, Bool.false_eq_true, if_false, hncs, hdcs,
      Option.some.injEq] at h
    subst h
    refine ⟨2 * FRAC_PADDING + max wn wd, ?_, ?_, ?_, ?_, ?_⟩
    · intro hcon
      rw [List.append_eq_nil] at hcon
      exact absurd hcon.2 (by simp)
    · simp [hnlen, hdlen, hn2, hd2]
    · intro l hl
      simp only [List.mem_append, List.mem_cons, List.mem_map] at hl
      rcases hl with ⟨l2, hl2, hmap⟩ | hl | ⟨l2, hl2, hmap⟩
      · subst hmap
        exact strAlign_length_of_le (by rw [hn3 l2 hl2]; omega)
      · subst hl; simp
      · subst hmap
        exact strAlign_length_of_le (by rw [hd3 l2 hl2]; omega)
    · intro c hc
      simp only [List.mem_append, List.mem_cons] at hc
      rcases hc with hc | hc | hc
      · exact hnall c hc
      · subst hc; simp
      · exact hdall c hc
    · apply outWidth_of
      · intro hcon
        rw [List.append_eq_nil] at hcon
        exact absurd hcon.2 (by simp)
      · intro l hl
        simp only [List.mem_append, List.mem_cons, List.mem_map] at hl
        rcases hl with ⟨l2, hl2, hmap⟩ | hl | ⟨l2, hl2, hmap⟩
        · subst hmap
          exact strAlign_length_of_le (by rw [hn3 l2 hl2]; omega)
        · subst hl; simp
        · subst hmap
          exact strAlign_length_of_le (by rw [hd3 l2 hl2]; omega)

theorem parenRows_good : ∀ (pairs : List (List Char × List Color)) (idx total w : Nat),
    (∀ p ∈ pairs, p.1.length = w ∧ p.2.length ≤ w) →
    ∃ L C, parenRows pairs idx total w = some (L, C) ∧
      L.length = pairs.length ∧ C.length = pairs.length ∧
      (∀ l ∈ L, l.length = w + 2) ∧ (∀ c ∈ C, c.length = w + 2) := by
  intro pairs
  induction pairs with
  | nil => exact fun idx total w _ => ⟨[], [], rfl, rfl, rfl, by simp, by simp⟩
  | cons p rest ih =>
    intro idx total w hgood
    obtain ⟨l, c⟩ := p
    obtain ⟨hl, hc⟩ := hgood (l, c) (List.mem_cons_self _ _)
    simp only at hl hc
    obtain ⟨a, ha, halen⟩ := listAlign_some_of_le hc
    obtain ⟨L, C, hLC, h1, h2, h3, h4⟩ :=
      ih (idx + 1) total w (fun p2 hp2 => hgood p2 (List.mem_cons_of_mem _ hp2))
    have hstep : parenRows ((l, c) :: rest) idx total w =
        some (((if idx = 0 then '⎛' else if idx < total - 1 then '⎜' else '⎝') ::
          strAlign l w ++
          [if idx = 0 then '⎞' else if idx < total - 1 then '⎟' else '⎠']) :: L,
          (Color.reset :: a ++ [Color.reset]) :: C) := by
      simp only [parenRows, ha, hLC]
    refine ⟨_, _, hstep, by simp [h1], by simp [h2], ?_, ?_⟩
    · intro l2 hl2
      rcases List.mem_cons.mp hl2 with hl2 | hl2
      · subst hl2
        have hsl : (strAlign l w).length = w := strAlign_length_of_le (by omega)
        simp [hsl]
      · exact h3 l2 hl2
    · intro c2 hc2
      rcases List.mem_cons.mp hc2 with hc2 | hc2
      · subst hc2
        simp [halen]
      · exact h4 c2 hc2

theorem zip_pairs_good {r : RenderOutput} {w : Nat} (hg : goodOut r)
    (hw : outWidth r = some w) :
    ∀ p ∈ r.lines.zip r.colors, p.1.length = w ∧ p.2.length ≤ w := by
  obtain ⟨w2, _, _, h3, h4, h5⟩ := hg
  rw [← outWidth_inj h5 hw]
  intro p hp
  obtain ⟨hp1, hp2⟩ := List.of_mem_zip hp
  exact ⟨h3 p.1 hp1, le_of_eq (h4 p.2 hp2)⟩

theorem parenAssemble_good {r out : RenderOutput} {w : Nat} (hg : goodOut r)
    (hw : outWidth r = some w) (h : parenAssemble r w = some out) : goodOut out := by
  obtain ⟨w2, hg1, hg2, hg3, hg4, hg5⟩ := hg
  rw [← outWidth_inj hg5 hw] at h
  cases hcur : r.cursor with
  | none =>
    simp only [parenAssemble, hcur] at h
    exact absurd h (by simp)
  | some cur =>
    cases hl : r.lines with
    | nil => exact absurd hl hg1
    | cons l0 ls0 =>
      cases ls0 with
      | nil =>
        -- single-row branch
        cases hc : r.colors with
        | nil =>
          rw [hl] at hg2
          simp [hc] at hg2
        | cons c0 cs0 =>
          simp only [parenAssemble, hcur, hl, hc, Option.some.injEq] at h
          subst h
          have hl0 : l0.length = w2 := hg3 l0 (by rw [hl]; exact List.mem_cons_self _ _)
          have hc0 : c0.length = w2 := hg4 c0 (by rw [hc]; exact List.mem_cons_self _ _)
          refine ⟨w2 + 2, by simp, by simp, ?_, ?_, ?_⟩
          · intro l hl2
            rcases List.mem_cons.mp hl2 with hl2 | hl2
            · subst hl2; simp [hl0]
            · simp at hl2
          · intro c hc2
            rcases List.mem_cons.mp hc2 with hc2 | hc2
            · subst hc2; simp [hc0]
            · simp at hc2
          · apply outWidth_of (by simp)
            intro l hl2
            rcases List.mem_cons.mp hl2 with hl2 | hl2
            · subst hl2; simp [hl0]
            · simp at hl2
      | cons l1 ls1 =>
        -- multi-row branch
        obtain ⟨L, C, hLC, hlen1, hlen2, hall1, hall2⟩ :=
          parenRows_good (r.lines.zip r.colors) 0 r.lines.length w2
            (zip_pairs_good ⟨w2, hg1, hg2, hg3, hg4, hg5⟩ hg5)
        rw [hl] at hLC
        simp only [parenAssemble, hcur, hl, hLC, Option.some.injEq] at h
        subst h
        have hzlen : ((l0 :: l1 :: ls1).zip r.colors).length = (l0 :: l1 :: ls1).length := by
          rw [List.length_zip]
          rw [hl] at hg2
          omega
        refine ⟨w2 + 2, ?_, ?_, ?_, ?_, ?_⟩
        · intro hcon
          subst hcon
          rw [hl, hzlen] at hlen1
          simp at hlen1
        · rw [hlen1, hlen2]
        · intro l hl2
          exact hall1 l hl2
        · intro c hc2
          exact hall2 c hc2
        · apply outWidth_of
          · intro hcon
            subst hcon
            rw [hl, hzlen] at hlen1
            simp at hlen1
          · intro l hl2
            exact hall1 l hl2

theorem parenAssemble_some {r : RenderOutput} {w : Nat} (hg : goodOut r)
    (hw : outWidth r = some w) (hc : r.cursor.isSome = true) :
    ∃ out, parenAssemble r w = some out := by
  obtain ⟨w2, hg1, hg2, hg3, hg4, hg5⟩ := hg
  rw [← outWidth_inj hg5 hw]
  cases hcur : r.cursor with
  | none => rw [hcur] at hc; simp at hc
  | some cur =>
    cases hl : r.lines with
    | nil => exact absurd hl hg1
    | cons l0 ls0 =>
      cases ls0 with
      | nil =>
        cases hcol : r.colors with
        | nil =>
          rw [hl] at hg2
          simp [hcol] at hg2
        | cons c0 cs0 =>
          refine ⟨⟨[('(' :: l0) ++ [')']], [(Color.reset :: c0) ++ [Color.reset]], 0,
            some ⟨cur.row, cur.col + 1⟩⟩, ?_⟩
          simp only [parenAssemble, hcur, hl, hcol]
      | cons l1 ls1 =>
        obtain ⟨L, C, hLC, _, _, _, _⟩ :=
          parenRows_good (r.lines.zip r.colors) 0 r.lines.length w2
            (zip_pairs_good ⟨w2, hg1, hg2, hg3, hg4, hg5⟩ hg5)
        rw [hl] at hLC
        refine ⟨⟨L, C, r.baseline, some ⟨cur.row, cur.col + 1⟩⟩, ?_⟩
        simp only [parenAssemble, hcur, hl, hLC]

mutual

/-- Every successful render satisfies the Render Result invariants:
non-empty lines of one common length, one color row per line row, color
rows of the same length, and a successful `width()`. -/
theorem render_good : ∀ (e : Expr) (r : RenderOutput), render e = some r → goodOut r
  | .text s c, r => by
    intro h
    simp only [render, Option.some.injEq] at h
    subst h
    refine ⟨s.length, by simp, by simp, ?_, ?_, ?_⟩
    · intro l hl
      simp at hl
      subst hl
      rfl
    · intro c2 hc2
      simp at hc2
      subst hc2
      simp [colorize]
    · apply outWidth_of (by simp)
      intro l hl
      simp at hl
      subst hl
      rfl
  | .row [], r => by
    intro h
    simp [render] at h
  | .row (x :: xs), r => by
    intro h
    simp only [render] at h
    cases hrl : renderList (x :: xs) with
    | none =>
      simp only [hrl] at h
      exact Option.noConfusion h
    | some rs =>
      simp only [hrl] at h
      cases how : outWidths rs with
      | none =>
        simp only [how] at h
        exact Option.noConfusion h
      | some widths =>
        simp only [how] at h
        have hgood : ∀ r2 ∈ rs, goodOut r2 := renderList_good (x :: xs) rs hrl
        have hne : rs ≠ [] := by
          obtain ⟨r0, rs2, hrs2, _, _⟩ := renderList_cons_elim hrl
          subst hrs2
          simp
        exact rowAssemble_good how hgood hne h
  | .frac num den, r => by
    intro h
    simp only [render] at h
    cases hn : render num with
    | none =>
      cases hd : render den with
      | none =>
        simp only [hn, hd] at h
        exact Option.noConfusion h
      | some rd =>
        simp only [hn, hd] at h
        exact Option.noConfusion h
    | some rn =>
      cases hd : render den with
      | none =>
        simp only [hn, hd] at h
        exact Option.noConfusion h
      | some rd =>
        simp only [hn, hd] at h
        cases hnw : outWidth rn with
        | none =>
          cases hdw : outWidth rd with
          | none =>
            simp only [hnw, hdw] at h
            exact Option.noConfusion h
          | some dw =>
            simp only [hnw, hdw] at h
            exact Option.noConfusion h
        | some nw =>
          cases hdw : outWidth rd with
          | none =>
            simp only [hnw, hdw] at h
            exact Option.noConfusion h
          | some dw =>
            simp only [hnw, hdw] at h
            exact fracAssemble_good (render_good num rn hn) (render_good den rd hd)
              hnw hdw h
  | .paren x, r => by
    intro h
    simp only [render] at h
    cases hx : render x with
    | none =>
      simp only [hx] at h
      exact Option.noConfusion h
    | some rx =>
      simp only [hx] at h
      cases hwx : outWidth rx with
      | none =>
        simp only [hwx] at h
        exact Option.noConfusion h
      | some w =>
        simp only [hwx] at h
        exact parenAssemble_good (render_good x rx hx) hwx h

theorem renderList_good : ∀ (es : List Expr) (rs : List RenderOutput),
    renderList es = some rs → ∀ r ∈ rs, goodOut r
  | [], rs => by
    intro h r hr
    simp only [renderList, Option.some.injEq] at h
    subst h
    simp at hr
  | x :: xs, rs => by
    intro h r hr
    obtain ⟨r0, rs2, hrs2, hr0, hrest⟩ := renderList_cons_elim h
    subst hrs2
    rcases List.mem_cons.mp hr with hreq | hr
    · exact hreq ▸ render_good x r0 hr0
    · exact renderList_good xs rs2 hrest r hr

end

/-! ### Claim theorems: rendering -/

/-- C2: for every expression whose render succeeds, all strings in
`render().lines` have equal length, and that common length is exactly
what `width()` returns. -/
theorem c2_lines_equal_length_eq_width (e : Expr) (r : RenderOutput)
    (h : render e = some r) :
    ∃ w, (∀ l ∈ r.lines, l.length = w) ∧ widthE e = some w := by
  obtain ⟨w, h1, h2, h3, h4, h5⟩ := render_good e r h
  refine ⟨w, h3, ?_⟩
  simp [widthE, h, h5]

/-- C2 (witness): the round-trip consistency applied to the render of
`Text("a+1")`. -/
theorem c2_witness :
    ∃ w, (∀ l ∈ (RenderOutput.mk [['a', '+', '1']]
        [[Color.txt, Color.op, Color.num]] 0 none).lines, l.length = w) ∧
      widthE (.text ['a', '+', '1'] none) = some w :=
  c2_lines_equal_length_eq_width (.text ['a', '+', '1'] none)
    ⟨[['a', '+', '1']], [[Color.txt, Color.op, Color.num]], 0, none⟩ rfl

/-- C7: `Fraction(Text("1"), Text("2"))` with `FRAC_PADDING = 1` renders
exactly the three rows `" 1 "`, `"───"`, `" 2 "`, each of width 3, and
its baseline is the number of numerator rows (1, the divider's row
index). -/
theorem c7_fraction_scenario :
    ∃ r rn, render (.frac (.text ['1'] none) (.text ['2'] none)) = some r ∧
      render (.text ['1'] none) = some rn ∧
      r.lines = [[' ', '1', ' '], ['─', '─', '─'], [' ', '2', ' ']] ∧
      (∀ l ∈ r.lines, l.length = 3) ∧
      r.baseline = rn.lines.length ∧ r.baseline = 1 := by
  refine ⟨_, _, rfl, rfl, rfl, ?_, rfl, rfl⟩
  decide

/-- C10: `Row()` with no children fails to render (unpacking
`zip(*[])` into four variables raises `ValueError`) rather than
returning an empty Render Result. -/
theorem c10_empty_row_render_fails : render (.row []) = none := rfl

/-- C1 (counterexample): `Parenthesis(Text("x"))` with no cursor in the
wrapped child fails to render — `Parenthesis.render` builds
`ScreenOffset(cursor.row, cursor.col + 1)` unconditionally, which
dereferences the absent cursor (`AttributeError` on `None`) — refuting
the claim that such a tree (which satisfies the at-most-one-cursor
invariant) renders successfully. -/
theorem c1_counterexample : render (.paren (.text ['x'] none)) = none := rfl

/-- C1 (amended): a `Parenthesis` node renders successfully exactly when
its wrapped child renders successfully AND the child's render exposes a
cursor; in particular a `Parenthesis` whose wrapped child exposes no
cursor fails to render instead of succeeding. -/
theorem c1_amended_paren_renders_iff_child_cursor (e : Expr) :
    (render (.paren e)).isSome = true ↔
      ∃ r, render e = some r ∧ r.cursor.isSome = true := by
  constructor
  · intro h
    cases hx : render e with
    | none => simp [render, hx] at h
    | some rx =>
      cases hwx : outWidth rx with
      | none => simp [render, hx, hwx] at h
      | some w =>
        refine ⟨rx, rfl, ?_⟩
        cases hcur : rx.cursor with
        | some cur => rfl
        | none =>
          exfalso
          simp only [render, hx, hwx] at h
          simp only [parenAssemble, hcur] at h
          simp at h
  · rintro ⟨r, hr, hc⟩
    obtain ⟨w, hg1, hg2, hg3, hg4, h5⟩ := render_good e r hr
    obtain ⟨out, hout⟩ := parenAssemble_some ⟨w, hg1, hg2, hg3, hg4, h5⟩ h5 hc
    simp [render, hr, h5, hout]


mutual

/-- The state-passing render returns the input tree unchanged and the
same Render Result as the pure `render`. -/
theorem renderSt_eq : ∀ e : Expr, renderSt e = (render e).map (fun r => (r, e))
  | .text s c => by simp [renderSt, render]
  | .row [] => by simp [renderSt, render]
  | .row (x :: xs) => by
    simp only [renderSt, render, renderStList_eq (x :: xs)]
    cases hrl : renderList (x :: xs) with
    | none => simp
    | some rs =>
      simp only [Option.map_some']
      cases how : outWidths rs with
      | none => simp
      | some widths =>
        cases hra : rowAssemble rs widths with
        | none => simp [hra]
        | some out => simp [hra]
  | .frac num den => by
    simp only [renderSt, render, renderSt_eq num, renderSt_eq den]
    cases hn : render num with
    | none => simp
    | some rn =>
      simp only [Option.map_some']
      cases hd : render den with
      | none => simp
      | some rd =>
        simp only [Option.map_some']
        cases hnw : outWidth rn with
        | none =>
          cases hdw : outWidth rd with
          | none => simp
          | some dw => simp
        | some nw =>
          cases hdw : outWidth rd with
          | none => simp
          | some dw =>
            cases hfa : fracAssemble rn rd nw dw with
            | none => simp [hfa]
            | some out => simp [hfa]
  | .paren x => by
    simp only [renderSt, render, renderSt_eq x]
    cases hx : render x with
    | none => simp
    | some rx =>
      simp only [Option.map_some']
      cases hwx : outWidth rx with
      | none => simp
      | some w =>
        cases hpa : parenAssemble rx w with
        | none => simp [hpa]
        | some out => simp [hpa]

theorem renderStList_eq : ∀ es : List Expr,
    renderStList es = (renderList es).map (fun rs => (rs, es))
  | [] => by simp [renderStList, renderList]
  | x :: xs => by
    simp only [renderStList, renderList, renderSt_eq x, renderStList_eq xs]
    cases hx : render x with
    | none => simp
    | some r =>
      simp only [Option.map_some']
      cases hxs : renderList xs with
      | none => simp
      | some rs => simp

end

/-- C9: render is side-effect-free and idempotent: a successful
state-passing render leaves the tree (every `Text` node's string and
cursor) unchanged, agrees with the pure `render`, and calling it again
on the post-call tree returns the same result. -/
theorem c9_render_pure_idempotent (e : Expr) (r : RenderOutput) (e2 : Expr)
    (h : renderSt e = some (r, e2)) :
    e2 = e ∧ render e = some r ∧ renderSt e2 = renderSt e := by
  have hst := renderSt_eq e
  rw [h] at hst
  cases hr : render e with
  | none => rw [hr] at hst; simp at hst
  | some r2 =>
    rw [hr] at hst
    simp only [Option.map_some', Option.some.injEq, Prod.mk.injEq] at hst
    obtain ⟨hr2, he2⟩ := hst
    subst he2
    subst hr2
    exact ⟨rfl, rfl, rfl⟩

/-- C9 (witness): the purity theorem applied to `Text("a")`. -/
theorem c9_witness :
    Expr.text ['a'] none = Expr.text ['a'] none ∧
    render (.text ['a'] none) = some ⟨[['a']], [[Color.txt]], 0, none⟩ ∧
    renderSt (.text ['a'] none) = renderSt (.text ['a'] none) :=
  c9_render_pure_idempotent (.text ['a'] none)
    ⟨[['a']], [[Color.txt]], 0, none⟩ (.text ['a'] none) rfl
